import Mathlib

/-!
Verification development for the scalar expression / reverse-mode AD library
in `src/lib.rs`.

The Rust code stores nodes in a `typed_arena::Arena` and refers to them by
shared references; each node carries a `Cell<f32>` value slot and a
`RefCell<HashMap<String, f32>>` gradient map.  Following the index-based
arena strategy, the embedding represents the arena as a `List (NodeData α)`
and a `NodeRef` as a `Nat` index into that list.  Interior mutability is
made explicit: the mutable state (`arena`, the set of actively mutably
borrowed gradient maps, and an instrumentation trace) is threaded through
`reset_grads` / `backward_ad` as an `AdState`, and a `RefCell` borrow
failure is modelled as the `panic` outcome.  Recursion is fuel-indexed so
that runs over malformed (cyclic) arenas are expressible; `nofuel` at every
fuel amount witnesses divergence.

Scalar arithmetic (`f32` in the source) is abstracted as a `ScalarOps`
structure; the concrete test scenarios use `ℚ` (every operation they perform
is exact in `f32`), and the trigonometric claims use `ℝ`.
-/

set_option maxRecDepth 8000

set_option allowUnsafeReducibility true

attribute [local semireducible] Rat.add Rat.mul Rat.div Rat.sub Rat.neg Rat.inv

universe u

variable {α : Type}

/-- Scalar arithmetic interface abstracting the `f32` operations that
`src/lib.rs` uses (`+`, `-`, `*`, `/`, unary `-`, `powf`, `sin`, `cos`,
and the literals `0f32`, `1f32`, `2f32`). -/
structure ScalarOps (α : Type) where
  zero : α
  one : α
  two : α
  neg : α → α
  add : α → α → α
  sub : α → α → α
  mul : α → α → α
  div : α → α → α
  powf : α → α → α
  sinf : α → α
  cosf : α → α

/-- Mirrors `enum NodeType<'a>` from `src/lib.rs`; a `Node<'a>` operand
reference becomes an arena index (`Nat`). -/
inductive NodeType (α : Type) where
  | const (value : α)
  | var (name : String)
  | neg (value : Nat)
  | add (lhs rhs : Nat)
  | sub (lhs rhs : Nat)
  | mul (lhs rhs : Nat)
  | div (lhs rhs : Nat)
  | pow (lhs : Nat) (rhs : α)
  | sin (value : Nat)
  | cos (value : Nat)
deriving DecidableEq, Repr

/-- Model of `HashMap<String, f32>`: an association list with at most one
entry per key (inserts overwrite). -/
abbrev Grads (α : Type) := List (String × α)

/-- Lookup in the gradient map (`map.get`). -/
def gradsGet? (g : Grads α) (k : String) : Option α :=
  (g.find? (fun p => decide (p.1 = k))).map (fun p => p.2)

/-- `HashMap::insert`: overwrite the entry for `k` if present, otherwise
append it; keys stay unique. -/
def gradsInsert (g : Grads α) (k : String) (x : α) : Grads α :=
  match g with
  | [] => [(k, x)]
  | p :: rest => if p.1 = k then (k, x) :: rest else p :: gradsInsert rest k x

/-- Mirrors `struct NodeData<'a>`: the immutable variant tag, the
`value: Cell<f32>` slot and the `grads: RefCell<HashMap<String, f32>>` map. -/
structure NodeData (α : Type) where
  type_ : NodeType α
  value : α
  grads : Grads α
deriving DecidableEq, Repr

/-- Mirrors `impl From<NodeType> for NodeData`: a fresh node gets
`value = 0` (the `Cell::new(0f32)` default) and an empty gradient map. -/
def nodeOfType (zero : α) (t : NodeType α) : NodeData α :=
  { type_ := t, value := zero, grads := [] }

/-- Instrumentation events: one `resetClear i` per `grads.borrow_mut().clear()`
executed on node `i` in `reset_grads`, one `compute i` each time node `i`
actually runs the gradient-computing `match` in `backward_ad`. -/
inductive Event where
  | resetClear (i : Nat)
  | compute (i : Nat)
deriving DecidableEq, Repr

/-- The mutable state threaded through differentiation: the arena contents,
the indices whose `grads` `RefCell` is currently mutably borrowed somewhere
on the call stack, and the instrumentation trace. -/
structure AdState (α : Type) where
  arena : List (NodeData α)
  borrowed : List Nat
  trace : List Event
deriving DecidableEq, Repr

/-- Outcome of a fuel-indexed run: normal return, a `RefCell` borrow panic
(or an impossible out-of-range reference), or fuel exhaustion. -/
inductive AdRes (α : Type) where
  | ok (st : AdState α)
  | panic
  | nofuel
deriving DecidableEq, Repr

/-- Projection of the arena to the immutable variant tags; node references
and reachability depend only on this. -/
def typesOf (a : List (NodeData α)) : List (NodeType α) :=
  a.map (fun nd => nd.type_)

/-- Projection of the arena to the `current_value` slots. -/
def valuesOf (a : List (NodeData α)) : List α :=
  a.map (fun nd => nd.value)

/-- Projection to everything except the gradient maps (the part of a node
that `backward_ad` never writes). -/
def shapeOf (a : List (NodeData α)) : List (NodeType α × α) :=
  a.map (fun nd => (nd.type_, nd.value))

/-- Mirrors `pub fn forward(node, assignment) -> Option<f32>`.  The outer
`Option` is the fuel/validity channel (`none` = ran out of fuel or an
out-of-range index, impossible on arenas built by the constructors); the
inner `Option` is the Rust result (`none` = a missing variable). -/
def forward (ops : ScalarOps α) (arena : List (NodeData α)) :
    Nat → Nat → (String → Option α) → Option (Option α)
  | 0, _, _ => none
  | fuel + 1, i, m =>
    match arena[i]? with
    | none => none
    | some nd =>
      match nd.type_ with
      | .const v => some (some v)
      | .var name => some (m name)
      | .neg a =>
        match forward ops arena fuel a m with
        | none => none
        | some none => some none
        | some (some x) => some (some (ops.neg x))
      | .add a b =>
        match forward ops arena fuel a m with
        | none => none
        | some none => some none
        | some (some x) =>
          match forward ops arena fuel b m with
          | none => none
          | some none => some none
          | some (some y) => some (some (ops.add x y))
      | .sub a b =>
        match forward ops arena fuel a m with
        | none => none
        | some none => some none
        | some (some x) =>
          match forward ops arena fuel b m with
          | none => none
          | some none => some none
          | some (some y) => some (some (ops.sub x y))
      | .mul a b =>
        match forward ops arena fuel a m with
        | none => none
        | some none => some none
        | some (some x) =>
          match forward ops arena fuel b m with
          | none => none
          | some none => some none
          | some (some y) => some (some (ops.mul x y))
      | .div a b =>
        match forward ops arena fuel a m with
        | none => none
        | some none => some none
        | some (some x) =>
          match forward ops arena fuel b m with
          | none => none
          | some none => some none
          | some (some y) => some (some (ops.div x y))
      | .pow a k =>
        match forward ops arena fuel a m with
        | none => none
        | some none => some none
        | some (some x) => some (some (ops.powf x k))
      | .sin a =>
        match forward ops arena fuel a m with
        | none => none
        | some none => some none
        | some (some x) => some (some (ops.sinf x))
      | .cos a =>
        match forward ops arena fuel a m with
        | none => none
        | some none => some none
        | some (some x) => some (some (ops.cosf x))

/-- Mirrors `pub fn reset_grads(&self)`: clear this node's gradient map
(`self.grads.borrow_mut().clear()` — a panic if that map is mutably
borrowed higher up the stack) and recurse into every operand. -/
def reset_grads : Nat → Nat → AdState α → AdRes α
  | 0, _, _ => .nofuel
  | fuel + 1, i, st =>
    match st.arena[i]? with
    | none => .panic
    | some nd =>
      if i ∈ st.borrowed then .panic
      else
        let st1 : AdState α :=
          { st with arena := st.arena.set i { nd with grads := [] },
                    trace := st.trace ++ [Event.resetClear i] }
        match nd.type_ with
        | .const _ => .ok st1
        | .var _ => .ok st1
        | .neg a => reset_grads fuel a st1
        | .pow a _ => reset_grads fuel a st1
        | .sin a => reset_grads fuel a st1
        | .cos a => reset_grads fuel a st1
        | .add a b =>
          match reset_grads fuel a st1 with
          | .ok st2 => reset_grads fuel b st2
          | .panic => .panic
          | .nofuel => .nofuel
        | .sub a b =>
          match reset_grads fuel a st1 with
          | .ok st2 => reset_grads fuel b st2
          | .panic => .panic
          | .nofuel => .nofuel
        | .mul a b =>
          match reset_grads fuel a st1 with
          | .ok st2 => reset_grads fuel b st2
          | .panic => .panic
          | .nofuel => .nofuel
        | .div a b =>
          match reset_grads fuel a st1 with
          | .ok st2 => reset_grads fuel b st2
          | .panic => .panic
          | .nofuel => .nofuel

/-- The `for v in variables { grads.insert(v, ...) }` loop of `backward_ad`.
`vf v` is the gradient value inserted for variable `v` (`none` models the
`HashMap` index panic when a child's gradient entry is missing). -/
def insertLoop (vf : String → Option α) : List String → Grads α → Option (Grads α)
  | [], acc => some acc
  | v :: rest, acc =>
    match vf v with
    | none => none
    | some x => insertLoop vf rest (gradsInsert acc v x)

/-- Final step of one `backward_ad` activation on node `i`: run the insert
loop on the mutably borrowed gradient map (whose content is `nd.grads`, the
content at borrow time — children cannot touch it while it is borrowed),
store the result, release the borrow, and log the `compute` event. -/
def finishNode (vf : String → Option α) (vars : List String) (i : Nat)
    (nd : NodeData α) (st : AdState α) : AdRes α :=
  match insertLoop vf vars nd.grads with
  | none => .panic
  | some g =>
    .ok { st with arena := st.arena.set i { nd with grads := g },
                  borrowed := st.borrowed.erase i,
                  trace := st.trace ++ [Event.compute i] }

/-- Mirrors `pub fn backward_ad(&self, variables)` literally: every
activation (the top-level call and each nested recursive call) first runs
`self.reset_grads()`, then takes the mutable borrow of its own gradient map
(panicking if it is already borrowed — the cycle guard), then performs the
(dead, see the development's theorems) memoization check, then recurses into
its operands and combines their gradients according to each variant's
formula, reading `current_value` slots where the source does. -/
def backward_ad (ops : ScalarOps α) : Nat → List String → Nat → AdState α → AdRes α
  | 0, _, _, _ => .nofuel
  | fuel + 1, vars, i, st =>
    match reset_grads fuel i st with
    | .panic => .panic
    | .nofuel => .nofuel
    | .ok st1 =>
      match st1.arena[i]? with
      | none => .panic
      | some nd =>
        if i ∈ st1.borrowed then .panic
        else
          let stB : AdState α := { st1 with borrowed := i :: st1.borrowed }
          if nd.grads.length ≠ 0 then
            .ok { stB with borrowed := stB.borrowed.erase i }
          else
            match nd.type_ with
            | .const _ =>
              finishNode (fun _ => some ops.zero) vars i nd stB
            | .var name =>
              finishNode (fun v => some (if name = v then ops.one else ops.zero))
                vars i nd stB
            | .neg a =>
              match backward_ad ops fuel vars a stB with
              | .ok st2 =>
                if a ∈ st2.borrowed then .panic
                else
                  match st2.arena[a]? with
                  | none => .panic
                  | some ca =>
                    finishNode (fun v => (gradsGet? ca.grads v).map ops.neg)
                      vars i nd st2
              | .panic => .panic
              | .nofuel => .nofuel
            | .add a b =>
              match backward_ad ops fuel vars a stB with
              | .ok st2 =>
                match backward_ad ops fuel vars b st2 with
                | .ok st3 =>
                  if a ∈ st3.borrowed then .panic
                  else if b ∈ st3.borrowed then .panic
                  else
                    match st3.arena[a]?, st3.arena[b]? with
                    | some ca, some cb =>
                      finishNode (fun v =>
                        match gradsGet? ca.grads v, gradsGet? cb.grads v with
                        | some ga, some gb => some (ops.add ga gb)
                        | _, _ => none) vars i nd st3
                    | _, _ => .panic
                | .panic => .panic
                | .nofuel => .nofuel
              | .panic => .panic
              | .nofuel => .nofuel
            | .sub a b =>
              match backward_ad ops fuel vars a stB with
              | .ok st2 =>
                match backward_ad ops fuel vars b st2 with
                | .ok st3 =>
                  if a ∈ st3.borrowed then .panic
                  else if b ∈ st3.borrowed then .panic
                  else
                    match st3.arena[a]?, st3.arena[b]? with
                    | some ca, some cb =>
                      finishNode (fun v =>
                        match gradsGet? ca.grads v, gradsGet? cb.grads v with
                        | some ga, some gb => some (ops.sub ga gb)
                        | _, _ => none) vars i nd st3
                    | _, _ => .panic
                | .panic => .panic
                | .nofuel => .nofuel
              | .panic => .panic
              | .nofuel => .nofuel
            | .mul a b =>
              match backward_ad ops fuel vars a stB with
              | .ok st2 =>
                match backward_ad ops fuel vars b st2 with
                | .ok st3 =>
                  if a ∈ st3.borrowed then .panic
                  else if b ∈ st3.borrowed then .panic
                  else
                    match st3.arena[a]?, st3.arena[b]? with
                    | some ca, some cb =>
                      finishNode (fun v =>
                        match gradsGet? ca.grads v, gradsGet? cb.grads v with
                        | some ga, some gb =>
                          some (ops.add (ops.mul ga cb.value) (ops.mul ca.value gb))
                        | _, _ => none) vars i nd st3
                    | _, _ => .panic
                | .panic => .panic
                | .nofuel => .nofuel
              | .panic => .panic
              | .nofuel => .nofuel
            | .div a b =>
              match backward_ad ops fuel vars a stB with
              | .ok st2 =>
                match backward_ad ops fuel vars b st2 with
                | .ok st3 =>
                  if a ∈ st3.borrowed then .panic
                  else if b ∈ st3.borrowed then .panic
                  else
                    match st3.arena[a]?, st3.arena[b]? with
                    | some ca, some cb =>
                      finishNode (fun v =>
                        match gradsGet? ca.grads v, gradsGet? cb.grads v with
                        | some ga, some gb =>
                          some (ops.div
                            (ops.sub (ops.mul ga cb.value) (ops.mul ca.value gb))
                            (ops.powf cb.value ops.two))
                        | _, _ => none) vars i nd st3
                    | _, _ => .panic
                | .panic => .panic
                | .nofuel => .nofuel
              | .panic => .panic
              | .nofuel => .nofuel
            | .pow a k =>
              match backward_ad ops fuel vars a stB with
              | .ok st2 =>
                if a ∈ st2.borrowed then .panic
                else
                  match st2.arena[a]? with
                  | none => .panic
                  | some ca =>
                    finishNode (fun v =>
                      (gradsGet? ca.grads v).map (fun ga =>
                        ops.mul (ops.mul k (ops.powf nd.value (ops.sub k ops.one))) ga))
                      vars i nd st2
              | .panic => .panic
              | .nofuel => .nofuel
            | .sin a =>
              match backward_ad ops fuel vars a stB with
              | .ok st2 =>
                if a ∈ st2.borrowed then .panic
                else
                  match st2.arena[a]? with
                  | none => .panic
                  | some ca =>
                    finishNode (fun v =>
                      (gradsGet? ca.grads v).map (fun ga =>
                        ops.mul (ops.cosf nd.value) ga))
                      vars i nd st2
              | .panic => .panic
              | .nofuel => .nofuel
            | .cos a =>
              match backward_ad ops fuel vars a stB with
              | .ok st2 =>
                if a ∈ st2.borrowed then .panic
                else
                  match st2.arena[a]? with
                  | none => .panic
                  | some ca =>
                    finishNode (fun v =>
                      (gradsGet? ca.grads v).map (fun ga =>
                        ops.mul (ops.neg (ops.sinf nd.value)) ga))
                      vars i nd st2
              | .panic => .panic
              | .nofuel => .nofuel

/-- Children (operand indices) of a variant tag. -/
def childIndices : NodeType α → List Nat
  | .const _ => []
  | .var _ => []
  | .neg a => [a]
  | .pow a _ => [a]
  | .sin a => [a]
  | .cos a => [a]
  | .add a b => [a, b]
  | .sub a b => [a, b]
  | .mul a b => [a, b]
  | .div a b => [a, b]

/-- Reachability in the (immutable) reference structure of an arena. -/
inductive Reaches (T : List (NodeType α)) : Nat → Nat → Prop where
  | refl (i : Nat) : Reaches T i i
  | step (i j k : Nat) (t : NodeType α) (hT : T[i]? = some t)
      (hj : j ∈ childIndices t) (h : Reaches T j k) : Reaches T i k

/-- A gradient map holding exactly one entry per variable name occurring in
`vars` (spec §3, the `gradients` invariant). -/
def keysMatch (g : Grads α) (vars : List String) : Prop :=
  (g.map Prod.fst).Nodup ∧
    (∀ s ∈ g.map Prod.fst, s ∈ vars) ∧ (∀ s ∈ vars, s ∈ g.map Prod.fst)

instance (g : Grads α) (vars : List String) : Decidable (keysMatch g vars) := by
  unfold keysMatch; infer_instance

/-- Convenience projection: the gradient stored at node `i` for variable `v`. -/
def gradAt (st : AdState α) (i : Nat) (v : String) : Option α :=
  (st.arena[i]?).bind (fun nd => gradsGet? nd.grads v)

/-- Result extraction for chaining top-level calls. -/
def runOk? : AdRes α → Option (AdState α)
  | .ok st => some st
  | _ => none

/-- Fresh session state over a just-built arena (all gradient maps empty,
nothing borrowed). -/
def initSt (a : List (NodeData α)) : AdState α :=
  { arena := a, borrowed := [], trace := [] }

/-- Exact-rational model of the `f32` scalar ops.  All arithmetic the
concrete test scenarios perform is exact in `f32` (small dyadic rationals),
so `ℚ` is a faithful carrier for them.  `powf` matches `f32::powf` on the
natural-number exponents the code uses (`2.0` and `2.0 - 1.0`); `sin`/`cos`
have no exact rational counterpart and are only exercised by theorems that
hold for an arbitrary `ScalarOps` instance. -/
def ratPowf (a b : ℚ) : ℚ :=
  if b.den = 1 ∧ 0 ≤ b.num then a ^ b.num.toNat else 0

def ratOps : ScalarOps ℚ :=
  { zero := 0, one := 1, two := 2,
    neg := fun x => -x,
    add := fun x y => x + y,
    sub := fun x y => x - y,
    mul := fun x y => x * y,
    div := fun x y => x / y,
    powf := ratPowf,
    sinf := fun _ => 0,
    cosf := fun _ => 0 }

/-- Real-number model of the `f32` scalar ops, for the trigonometric
gradient formulas. -/
noncomputable def realOps : ScalarOps ℝ :=
  { zero := 0, one := 1, two := 2,
    neg := fun x => -x,
    add := fun x y => x + y,
    sub := fun x y => x - y,
    mul := fun x y => x * y,
    div := fun x y => x / y,
    powf := fun a b => Real.rpow a b,
    sinf := Real.sin,
    cosf := Real.cos }

/-- The reference scenario of the repository's tests (`basic_forward`,
`basic_backward_ad`): `x`, `y`, `mul = x*y`, `div = x/y`, `add = mul+div`,
`sub = mul-div`; the differentiation runs have `x.value = 8`, `y.value = 4`
and every other value slot at its `0` default. -/
def refArena : List (NodeData ℚ) :=
  [{ type_ := .var "x", value := 8, grads := [] },
   { type_ := .var "y", value := 4, grads := [] },
   { type_ := .mul 0 1, value := 0, grads := [] },
   { type_ := .div 0 1, value := 0, grads := [] },
   { type_ := .add 2 3, value := 0, grads := [] },
   { type_ := .sub 2 3, value := 0, grads := [] }]

def refAssignment : String → Option ℚ :=
  fun s => if s = "x" then some 8 else if s = "y" then some 4 else none

/-- Diamond DAG: the shared subexpression `s = Var "x"` (index 0) has two
parents `p1 = Neg s` (index 1) and `p2 = Neg s` (index 2), both reachable
from the root `Add p1 p2` (index 3). -/
def diamondArena : List (NodeData ℚ) :=
  [{ type_ := .var "x", value := 1, grads := [] },
   { type_ := .neg 0, value := 0, grads := [] },
   { type_ := .neg 0, value := 0, grads := [] },
   { type_ := .add 1 2, value := 0, grads := [] }]

/-- `Pow(Var "x", 2.0)` with `x.value = 3` set by the caller and the `Pow`
node's own value slot left at its `From<NodeType>` default `0`. -/
def powArena : List (NodeData ℚ) :=
  [{ type_ := .var "x", value := 3, grads := [] },
   nodeOfType 0 (.pow 0 2)]

/-- A structurally cyclic arena (node 0 is its own operand), the shape the
spec's cycle-detection scenario back-patches into existence. -/
def loopArena : List (NodeData ℚ) :=
  [{ type_ := .neg 0, value := 0, grads := [] }]

/-- Two unrelated variable nodes; differentiating one leaves the other's
gradient map untouched (and hence possibly stale). -/
def twoVarArena : List (NodeData ℚ) :=
  [{ type_ := .var "x", value := 0, grads := [] },
   { type_ := .var "y", value := 0, grads := [] }]

/-- True when the trace contains a `resetClear n` event strictly after the
first `compute n` event: node `n`'s computed gradients were cleared again
later in the same top-level call. -/
def clearedAfterComputed (tr : List Event) (n : Nat) : Bool :=
  ((tr.dropWhile (fun e => decide (e ≠ Event.compute n))).drop 1).any
    (fun e => decide (e = Event.resetClear n))

/-- C1: in the diamond DAG (`s = Var "x"` shared by parents `p1 = Neg s`,
`p2 = Neg s` under root `Add p1 p2`), one top-level `backward_ad` call runs
`s`'s compute step twice (not once, as the claim states): the unconditional
`reset_grads` at the head of every recursive call clears `s`'s gradients
before the memoization check can ever see them.  Both parents nonetheless
end up with identical, correct gradients (`-1` each, with `1` stored at
`s`). -/
theorem diamond_shared_subexpression_recomputed :
    (runOk? (backward_ad ratOps 20 ["x"] 3 (initSt diamondArena))).map
      (fun st => (st.trace.count (Event.compute 0),
                  gradAt st 0 "x", gradAt st 1 "x", gradAt st 2 "x"))
      = some (2, some 1, some (-1), some (-1)) ∧ (2 : Nat) ≠ 1 := by
  decide

/-- C2: in the same diamond DAG, a nested recursive call clears gradients
that were already computed during the same top-level call: the trace
contains a `resetClear` on the shared node strictly after its first
`compute` (the reset pass is re-run by every recursive call, not performed
once at the outermost call). -/
theorem nested_call_clears_computed_gradients :
    (runOk? (backward_ad ratOps 20 ["x"] 3 (initSt diamondArena))).map
      (fun st => clearedAfterComputed st.trace 0) = some true := by
  decide

/-- C3: the reference scenario.  `evaluate(add) = 34`, `evaluate(sub) = 30`,
and after `differentiate(add, ["x","y"])` followed by
`differentiate(sub, ["x","y"])` (exactly as in the `basic_backward_ad`
test), `add` stores gradients `x ↦ 17/4 = 4.25`, `y ↦ 15/2 = 7.5` and `sub`
stores `x ↦ 15/4 = 3.75`, `y ↦ 17/2 = 8.5`. -/
theorem reference_scenario_eval :
    forward ratOps refArena 20 4 refAssignment = some (some 34) ∧
    forward ratOps refArena 20 5 refAssignment = some (some 30) ∧
    ((runOk? (backward_ad ratOps 20 ["x", "y"] 4 (initSt refArena))).bind
      (fun st => runOk? (backward_ad ratOps 20 ["x", "y"] 5 st))).map
      (fun st => (gradAt st 4 "x", gradAt st 4 "y", gradAt st 5 "x", gradAt st 5 "y"))
      = some (some (17/4), some (15/2), some (15/4), some (17/2)) := by
  decide

/-- C5: differentiating `Pow(Var "x", 2.0)` with `x.value = 3` and the
`Pow` node's own value slot left at the `From<NodeType>` default `0` stores
gradient `2 * 0^1 * 1 = 0` at the `Pow` node — not the mathematically
required `6`: the `Pow` formula reads the node's own cached value, which the
caller never set. -/
theorem pow_boundary_gradient_is_zero :
    (runOk? (backward_ad ratOps 20 ["x"] 1 (initSt powArena))).map
      (fun st => gradAt st 1 "x") = some (some 0) ∧ (0 : ℚ) ≠ 6 := by
  decide

/-- C7 counterexample: after the top-level call `differentiate(x, ["x"])`
(preceded by an earlier pass `differentiate(y, ["z"])` on the same session),
the unreachable node `y` still holds its stale gradient map `[("z", 0)]`,
which is neither empty nor `exactly one entry per name in ["x"]`. -/
theorem stale_gradients_on_unreachable_node :
    ((runOk? (backward_ad ratOps 5 ["z"] 1 (initSt twoVarArena))).bind
      (fun st => runOk? (backward_ad ratOps 5 ["x"] 0 st))).map
      (fun st => (st.arena[1]?).map (fun nd => nd.grads))
      = some (some [("z", (0 : ℚ))]) ∧
    ¬ ([("z", (0 : ℚ))] = ([] : Grads ℚ) ∨ keysMatch [("z", (0 : ℚ))] ["x"]) := by
  decide

/-- Helper for C9: on the self-loop arena shape, `reset_grads` consumes any
amount of fuel without returning (the recursion re-enters node `0` forever;
the transient `borrow_mut` in `reset_grads` is released after each `clear`,
so no borrow panic ever fires). -/
theorem reset_grads_selfloop_nofuel :
    ∀ (fuel : Nat) (st : AdState ℚ),
      typesOf st.arena = [NodeType.neg 0] → st.borrowed = [] →
      reset_grads fuel 0 st = AdRes.nofuel := by
  intro fuel
  induction fuel with
  | zero => intro st h1 h2; rfl
  | succ n ih =>
    intro st h1 h2
    match hA : st.arena with
    | [] => rw [typesOf, hA] at h1; simp at h1
    | nd :: rest =>
      rw [typesOf, hA] at h1
      simp only [List.map_cons, List.cons.injEq] at h1
      obtain ⟨hnd, hrest⟩ := h1
      have hrest' : rest = [] := List.map_eq_nil_iff.mp hrest
      subst hrest'
      rw [reset_grads]
      rw [hA, h2]
      simp only [List.getElem?_cons_zero, List.not_mem_nil, if_false]
      rw [hnd]
      exact ih _ (by simp [typesOf, hA, List.set]) (by simp [h2])

/-- Looking up a node's variant tag through the `typesOf` projection. -/
theorem typesOf_getElem? (a : List (NodeData α)) (i : Nat) :
    (typesOf a)[i]? = a[i]?.map (fun nd => nd.type_) := by
  simp [typesOf]

/-- C8: `forward` reads nothing but the immutable variant structure — two
arenas with the same `typesOf` projection (hence arbitrary `current_value`
slots and gradient maps) give identical evaluation results for every root
and assignment; in particular `forward` is a pure function of
`(root, assignment)` over a fixed graph. -/
theorem forward_reads_only_structure (ops : ScalarOps α) (a1 a2 : List (NodeData α))
    (h : typesOf a1 = typesOf a2) :
    ∀ (fuel i : Nat) (m : String → Option α),
      forward ops a1 fuel i m = forward ops a2 fuel i m := by
  intro fuel
  induction fuel with
  | zero => intro i m; rfl
  | succ n ih =>
    intro i m
    have hi : a1[i]?.map (fun nd => nd.type_) = a2[i]?.map (fun nd => nd.type_) := by
      rw [← typesOf_getElem?, ← typesOf_getElem?, h]
    rw [forward, forward]
    cases h1 : a1[i]? with
    | none =>
      cases h2 : a2[i]? with
      | none => rfl
      | some nd2 => rw [h1, h2] at hi; simp at hi
    | some nd1 =>
      cases h2 : a2[i]? with
      | none => rw [h1, h2] at hi; simp at hi
      | some nd2 =>
        rw [h1, h2] at hi
        simp only [Option.map_some', Option.some.injEq] at hi
        simp only [h1, h2]
        rw [← hi]
        cases hT : nd1.type_ <;> simp only [ih]

/-- C6: if a `Var z` node with `z` absent from the assignment is reachable
from `root`, then `forward` can never produce a present value at `root`
(whatever it returns — absent, or fuel exhaustion on malformed graphs — it
is not `some x`). -/
theorem missing_variable_propagates (ops : ScalarOps α) (arena : List (NodeData α))
    (m : String → Option α) (root k : Nat) (z : String)
    (hreach : Reaches (typesOf arena) root k)
    (hk : (typesOf arena)[k]? = some (NodeType.var z))
    (hm : m z = none) :
    ∀ (fuel : Nat) (x : α), forward ops arena fuel root m ≠ some (some x) := by
  induction hreach with
  | refl i =>
    intro fuel x hx
    cases fuel with
    | zero => exact Option.noConfusion hx
    | succ n =>
      rw [typesOf_getElem?] at hk
      cases hnd : arena[i]? with
      | none => rw [hnd] at hk; exact Option.noConfusion hk
      | some nd =>
        rw [hnd] at hk
        simp only [Option.map_some', Option.some.injEq] at hk
        rw [forward, hnd] at hx
        simp only [hk, hm] at hx
        exact Option.noConfusion (Option.some.inj hx)
  | step i j k t hT hj hsub ih =>
    intro fuel x hx
    cases fuel with
    | zero => exact Option.noConfusion hx
    | succ n =>
      rw [typesOf_getElem?] at hT
      cases hnd : arena[i]? with
      | none => rw [hnd] at hT; exact Option.noConfusion hT
      | some nd =>
        rw [hnd] at hT
        simp only [Option.map_some', Option.some.injEq] at hT
        rw [forward, hnd] at hx
        simp only [hT] at hx
        cases t with
        | const v => simp [childIndices] at hj
        | var name => simp [childIndices] at hj
        | neg a =>
          dsimp only at hx
          simp only [childIndices, List.mem_singleton] at hj
          subst hj
          cases hr : forward ops arena n j m with
          | none => rw [hr] at hx; exact Option.noConfusion hx
          | some o =>
            cases o with
            | none => rw [hr] at hx; exact Option.noConfusion (Option.some.inj hx)
            | some y => exact ih hk n y hr
        | pow a e =>
          dsimp only at hx
          simp only [childIndices, List.mem_singleton] at hj
          subst hj
          cases hr : forward ops arena n j m with
          | none => rw [hr] at hx; exact Option.noConfusion hx
          | some o =>
            cases o with
            | none => rw [hr] at hx; exact Option.noConfusion (Option.some.inj hx)
            | some y => exact ih hk n y hr
        | sin a =>
          dsimp only at hx
          simp only [childIndices, List.mem_singleton] at hj
          subst hj
          cases hr : forward ops arena n j m with
          | none => rw [hr] at hx; exact Option.noConfusion hx
          | some o =>
            cases o with
            | none => rw [hr] at hx; exact Option.noConfusion (Option.some.inj hx)
            | some y => exact ih hk n y hr
        | cos a =>
          dsimp only at hx
          simp only [childIndices, List.mem_singleton] at hj
          subst hj
          cases hr : forward ops arena n j m with
          | none => rw [hr] at hx; exact Option.noConfusion hx
          | some o =>
            cases o with
            | none => rw [hr] at hx; exact Option.noConfusion (Option.some.inj hx)
            | some y => exact ih hk n y hr
        | add a b =>
          dsimp only at hx
          simp only [childIndices, List.mem_cons, List.not_mem_nil, or_false] at hj
          cases hj with
          | inl hja =>
            subst hja
            cases hr : forward ops arena n j m with
            | none => rw [hr] at hx; exact Option.noConfusion hx
            | some o =>
              cases o with
              | none => rw [hr] at hx; exact Option.noConfusion (Option.some.inj hx)
              | some ya => exact ih hk n ya hr
          | inr hjb =>
            subst hjb
            cases hr : forward ops arena n a m with
            | none => rw [hr] at hx; exact Option.noConfusion hx
            | some o =>
              cases o with
              | none => rw [hr] at hx; exact Option.noConfusion (Option.some.inj hx)
              | some ya =>
                rw [hr] at hx
                cases hrb : forward ops arena n j m with
                | none => rw [hrb] at hx; exact Option.noConfusion hx
                | some ob =>
                  cases ob with
                  | none => rw [hrb] at hx; exact Option.noConfusion (Option.some.inj hx)
                  | some yb => exact ih hk n yb hrb
        | sub a b =>
          dsimp only at hx
          simp only [childIndices, List.mem_cons, List.not_mem_nil, or_false] at hj
          cases hj with
          | inl hja =>
            subst hja
            cases hr : forward ops arena n j m with
            | none => rw [hr] at hx; exact Option.noConfusion hx
            | some o =>
              cases o with
              | none => rw [hr] at hx; exact Option.noConfusion (Option.some.inj hx)
              | some ya => exact ih hk n ya hr
          | inr hjb =>
            subst hjb
            cases hr : forward ops arena n a m with
            | none => rw [hr] at hx; exact Option.noConfusion hx
            | some o =>
              cases o with
              | none => rw [hr] at hx; exact Option.noConfusion (Option.some.inj hx)
              | some ya =>
                rw [hr] at hx
                cases hrb : forward ops arena n j m with
                | none => rw [hrb] at hx; exact Option.noConfusion hx
                | some ob =>
                  cases ob with
                  | none => rw [hrb] at hx; exact Option.noConfusion (Option.some.inj hx)
                  | some yb => exact ih hk n yb hrb
        | mul a b =>
          dsimp only at hx
          simp only [childIndices, List.mem_cons, List.not_mem_nil, or_false] at hj
          cases hj with
          | inl hja =>
            subst hja
            cases hr : forward ops arena n j m with
            | none => rw [hr] at hx; exact Option.noConfusion hx
            | some o =>
              cases o with
              | none => rw [hr] at hx; exact Option.noConfusion (Option.some.inj hx)
              | some ya => exact ih hk n ya hr
          | inr hjb =>
            subst hjb
            cases hr : forward ops arena n a m with
            | none => rw [hr] at hx; exact Option.noConfusion hx
            | some o =>
              cases o with
              | none => rw [hr] at hx; exact Option.noConfusion (Option.some.inj hx)
              | some ya =>
                rw [hr] at hx
                cases hrb : forward ops arena n j m with
                | none => rw [hrb] at hx; exact Option.noConfusion hx
                | some ob =>
                  cases ob with
                  | none => rw [hrb] at hx; exact Option.noConfusion (Option.some.inj hx)
                  | some yb => exact ih hk n yb hrb
        | div a b =>
          dsimp only at hx
          simp only [childIndices, List.mem_cons, List.not_mem_nil, or_false] at hj
          cases hj with
          | inl hja =>
            subst hja
            cases hr : forward ops arena n j m with
            | none => rw [hr] at hx; exact Option.noConfusion hx
            | some o =>
              cases o with
              | none => rw [hr] at hx; exact Option.noConfusion (Option.some.inj hx)
              | some ya => exact ih hk n ya hr
          | inr hjb =>
            subst hjb
            cases hr : forward ops arena n a m with
            | none => rw [hr] at hx; exact Option.noConfusion hx
            | some o =>
              cases o with
              | none => rw [hr] at hx; exact Option.noConfusion (Option.some.inj hx)
              | some ya =>
                rw [hr] at hx
                cases hrb : forward ops arena n j m with
                | none => rw [hrb] at hx; exact Option.noConfusion hx
                | some ob =>
                  cases ob with
                  | none => rw [hrb] at hx; exact Option.noConfusion (Option.some.inj hx)
                  | some yb => exact ih hk n yb hrb


/-- Inserting binds the inserted key. -/
theorem gradsGet?_insert_self (g : Grads α) (k : String) (x : α) :
    gradsGet? (gradsInsert g k x) k = some x := by
  induction g with
  | nil =>
    unfold gradsInsert gradsGet?
    rw [List.find?_cons_of_pos _ (by simp)]
    rfl
  | cons p rest ih =>
    rw [gradsInsert]
    by_cases hp : p.1 = k
    · rw [if_pos hp]
      unfold gradsGet?
      rw [List.find?_cons_of_pos _ (by simp)]
      rfl
    · rw [if_neg hp]
      unfold gradsGet? at ih ⊢
      rw [List.find?_cons_of_neg _ (by simp [hp])]
      exact ih

/-- Inserting leaves other keys alone. -/
theorem gradsGet?_insert_other (g : Grads α) (k v : String) (x : α) (h : v ≠ k) :
    gradsGet? (gradsInsert g k x) v = gradsGet? g v := by
  have hkv : ¬ (k = v) := fun hh => h hh.symm
  induction g with
  | nil =>
    unfold gradsInsert gradsGet?
    rw [List.find?_cons_of_neg _ (by simp [hkv])]
  | cons p rest ih =>
    rw [gradsInsert]
    by_cases hp : p.1 = k
    · rw [if_pos hp]
      have hpv : ¬ (p.1 = v) := by rw [hp]; exact hkv
      unfold gradsGet?
      rw [List.find?_cons_of_neg _ (by simp [hkv]), List.find?_cons_of_neg _ (by simp [hpv])]
    · rw [if_neg hp]
      by_cases hpv : p.1 = v
      · unfold gradsGet?
        rw [List.find?_cons_of_pos _ (by simp [hpv]), List.find?_cons_of_pos _ (by simp [hpv])]
      · unfold gradsGet? at ih ⊢
        rw [List.find?_cons_of_neg _ (by simp [hpv]), List.find?_cons_of_neg _ (by simp [hpv])]
        exact ih

/-- Key-set effect of an insert. -/
theorem mem_keys_insert (g : Grads α) (k : String) (x : α) (s : String) :
    s ∈ (gradsInsert g k x).map Prod.fst ↔ s ∈ g.map Prod.fst ∨ s = k := by
  induction g with
  | nil => simp [gradsInsert]
  | cons p rest ih =>
    rw [gradsInsert]
    by_cases hp : p.1 = k
    · rw [if_pos hp]
      simp only [List.map_cons, List.mem_cons, hp]
      tauto
    · rw [if_neg hp]
      simp only [List.map_cons, List.mem_cons, ih]
      tauto

/-- Inserts keep the key list duplicate-free. -/
theorem nodup_keys_insert (g : Grads α) (k : String) (x : α)
    (h : (g.map Prod.fst).Nodup) : ((gradsInsert g k x).map Prod.fst).Nodup := by
  induction g with
  | nil => simp [gradsInsert]
  | cons p rest ih =>
    rw [List.map_cons, List.nodup_cons] at h
    rw [gradsInsert]
    by_cases hp : p.1 = k
    · rw [if_pos hp]
      rw [List.map_cons, List.nodup_cons]
      exact ⟨hp ▸ h.1, h.2⟩
    · rw [if_neg hp]
      rw [List.map_cons, List.nodup_cons]
      refine ⟨?_, ih h.2⟩
      rw [mem_keys_insert]
      rintro (hs | rfl)
      · exact h.1 hs
      · exact hp rfl

/-- Keys produced by the insert loop: exactly the starting keys plus the
requested variable names, with no duplicates introduced. -/
theorem insertLoop_keys (vf : String → Option α) :
    ∀ (vars : List String) (acc out : Grads α), insertLoop vf vars acc = some out →
      ((acc.map Prod.fst).Nodup → (out.map Prod.fst).Nodup) ∧
      (∀ s, s ∈ out.map Prod.fst ↔ s ∈ acc.map Prod.fst ∨ s ∈ vars) := by
  intro vars
  induction vars with
  | nil =>
    intro acc out h
    rw [insertLoop] at h
    cases h
    exact ⟨fun hn => hn, fun s => by simp⟩
  | cons v rest ih =>
    intro acc out h
    rw [insertLoop] at h
    cases hv : vf v with
    | none => rw [hv] at h; exact Option.noConfusion h
    | some x =>
      rw [hv] at h
      obtain ⟨h1, h2⟩ := ih (gradsInsert acc v x) out h
      refine ⟨fun hn => h1 (nodup_keys_insert acc v x hn), fun s => ?_⟩
      rw [h2 s, mem_keys_insert]
      constructor
      · rintro ((hs | rfl) | hs)
        · exact Or.inl hs
        · simp
        · simp [hs]
      · rintro (hs | hs)
        · exact Or.inl (Or.inl hs)
        · simp only [List.mem_cons] at hs
          cases hs with
          | inl h => exact Or.inl (Or.inr h)
          | inr h => exact Or.inr h

/-- Values stored by the insert loop: each requested variable ends up bound
to the (necessarily defined) value `vf` gives for it. -/
theorem insertLoop_get (vf : String → Option α) :
    ∀ (vars : List String) (acc out : Grads α), insertLoop vf vars acc = some out →
      ∀ v ∈ vars, ∃ x, vf v = some x ∧ gradsGet? out v = some x := by
  intro vars
  induction vars with
  | nil => intro acc out h v hv; exact absurd hv (List.not_mem_nil v)
  | cons v' rest ih =>
    intro acc out h v hv
    rw [insertLoop] at h
    cases hv' : vf v' with
    | none => rw [hv'] at h; exact Option.noConfusion h
    | some x' =>
      rw [hv'] at h
      by_cases hmem : v ∈ rest
      · exact ih (gradsInsert acc v' x') out h v hmem
      · have hvv : v = v' := by
          rcases List.mem_cons.mp hv with h1 | h1
          · exact h1
          · exact absurd h1 hmem
        subst hvv
        refine ⟨x', hv', ?_⟩
        have huntouched : ∀ (vs : List String) (a o : Grads α), insertLoop vf vs a = some o →
            v ∉ vs → gradsGet? o v = gradsGet? a v := by
          intro vs
          induction vs with
          | nil => intro a o hio hnm; rw [insertLoop] at hio; cases hio; rfl
          | cons w ws ihw =>
            intro a o hio hnm
            rw [insertLoop] at hio
            cases hw : vf w with
            | none => rw [hw] at hio; exact Option.noConfusion hio
            | some xw =>
              rw [hw] at hio
              have hvw : v ≠ w := fun hh => hnm (hh ▸ List.mem_cons_self w ws)
              rw [ihw (gradsInsert a w xw) o hio (fun hh => hnm (List.mem_cons_of_mem w hh))]
              exact gradsGet?_insert_other a w v xw hvw
        rw [huntouched rest (gradsInsert acc v x') out h hmem]
        exact gradsGet?_insert_self acc v x'

/-- Shapes determine variant tags. -/
theorem typesOf_eq_of_shapeOf {a b : List (NodeData α)} (h : shapeOf a = shapeOf b) :
    typesOf a = typesOf b := by
  have h2 := congrArg (List.map Prod.fst) h
  rw [shapeOf, shapeOf, List.map_map, List.map_map] at h2
  exact h2

/-- Shapes determine `current_value` slots. -/
theorem valuesOf_eq_of_shapeOf {a b : List (NodeData α)} (h : shapeOf a = shapeOf b) :
    valuesOf a = valuesOf b := by
  have h2 := congrArg (List.map Prod.snd) h
  rw [shapeOf, shapeOf, List.map_map, List.map_map] at h2
  exact h2

/-- Shapes determine arena length. -/
theorem length_eq_of_shapeOf {a b : List (NodeData α)} (h : shapeOf a = shapeOf b) :
    a.length = b.length := by
  have h2 := congrArg List.length h
  rw [shapeOf, shapeOf, List.length_map, List.length_map] at h2
  exact h2

/-- Looking up a shape entry. -/
theorem shapeOf_getElem? (a : List (NodeData α)) (i : Nat) :
    (shapeOf a)[i]? = a[i]?.map (fun nd => (nd.type_, nd.value)) := by
  simp [shapeOf]

/-- Writing back a node with unchanged tag and value preserves the shape
projection. -/
theorem shapeOf_set_grads (a : List (NodeData α)) (i : Nat) (nd : NodeData α) (g : Grads α)
    (h : (shapeOf a)[i]? = some (nd.type_, nd.value)) :
    shapeOf (a.set i { nd with grads := g }) = shapeOf a := by
  apply List.ext_getElem?
  intro j
  by_cases hj : i = j
  · subst hj
    have ha : a[i]?.map (fun nd => (nd.type_, nd.value)) = some (nd.type_, nd.value) := by
      rw [← shapeOf_getElem?]; exact h
    cases ha2 : a[i]? with
    | none => rw [ha2] at ha; exact Option.noConfusion ha
    | some nd0 =>
      rw [ha2] at ha
      simp only [Option.map_some', Option.some.injEq] at ha
      simp [shapeOf_getElem?, List.getElem?_set_self', ha2, ha]
  · rw [shapeOf_getElem?, shapeOf_getElem?, List.getElem?_set_ne hj]

/-- Nodes with empty gradient maps stay empty across a run that only writes
empty maps or leaves entries untouched. -/
theorem grads_empty_persist {st st' : AdState α} (k : Nat)
    (hlen : st'.arena.length = st.arena.length)
    (hco : ∀ (j : Nat) (ndj : NodeData α), st'.arena[j]? = some ndj →
      ndj.grads = [] ∨ st.arena[j]? = some ndj)
    (hk : ∃ nd : NodeData α, st.arena[k]? = some nd ∧ nd.grads = []) :
    ∃ nd : NodeData α, st'.arena[k]? = some nd ∧ nd.grads = [] := by
  obtain ⟨nd, hnd, hg⟩ := hk
  have hk_lt : k < st'.arena.length := by
    rw [hlen]; exact (List.getElem?_eq_some.mp hnd).1
  cases hx : st'.arena[k]? with
  | none => exact absurd (List.getElem?_eq_none_iff.mp hx) (Nat.not_le.mpr hk_lt)
  | some nd2 =>
    rcases hco k nd2 hx with h2 | h2
    · exact ⟨nd2, rfl, h2⟩
    · rw [hnd] at h2
      cases h2
      exact ⟨nd, rfl, hg⟩

/-- Inversion principle for reachability. -/
theorem reaches_inv {T : List (NodeType α)} {i k : Nat} (h : Reaches T i k) :
    k = i ∨ ∃ (t : NodeType α) (j : Nat), T[i]? = some t ∧ j ∈ childIndices t ∧ Reaches T j k := by
  cases h with
  | refl i => exact Or.inl rfl
  | step i j k t hT hj hsub => exact Or.inr ⟨t, j, hT, hj, hsub⟩

/-- Master postcondition of a normally returning `reset_grads` run: shapes,
borrows and the trace discipline aside, the run (1) preserves every node
shape, (2) preserves the borrow set, (3) leaves nodes not reachable from its
argument untouched, (4) leaves every reachable node with an empty gradient
map, and (5) writes nothing but empty maps. -/
theorem reset_grads_spec :
    ∀ (fuel i : Nat) (st st' : AdState α), reset_grads fuel i st = .ok st' →
      shapeOf st'.arena = shapeOf st.arena ∧
      st'.borrowed = st.borrowed ∧
      (∀ k, ¬ Reaches (typesOf st.arena) i k → st'.arena[k]? = st.arena[k]?) ∧
      (∀ k, Reaches (typesOf st.arena) i k →
        ∃ nd : NodeData α, st'.arena[k]? = some nd ∧ nd.grads = []) ∧
      (∀ (k : Nat) (nd : NodeData α), st'.arena[k]? = some nd →
        nd.grads = [] ∨ st.arena[k]? = some nd) := by
  intro fuel
  induction fuel with
  | zero => intro i st st' h; exact AdRes.noConfusion h
  | succ n ih =>
    intro i st st' h
    rw [reset_grads] at h
    cases hnd : st.arena[i]? with
    | none => rw [hnd] at h; exact AdRes.noConfusion h
    | some nd =>
      rw [hnd] at h
      dsimp only at h
      by_cases hb : i ∈ st.borrowed
      · rw [if_pos hb] at h; exact AdRes.noConfusion h
      · rw [if_neg hb] at h
        have hT : (typesOf st.arena)[i]? = some nd.type_ := by
          rw [typesOf_getElem?, hnd]; rfl
        have hsh1 : shapeOf (st.arena.set i { nd with grads := [] }) = shapeOf st.arena := by
          apply shapeOf_set_grads
          rw [shapeOf_getElem?, hnd]; rfl
        have hty1 : typesOf (st.arena.set i { nd with grads := [] }) = typesOf st.arena :=
          typesOf_eq_of_shapeOf hsh1
        have hunt1 : ∀ k, k ≠ i →
            (st.arena.set i { nd with grads := [] })[k]? = st.arena[k]? := by
          intro k hk
          exact List.getElem?_set_ne (fun hh => hk hh.symm)
        have hi1 : (st.arena.set i { nd with grads := [] })[i]?
            = some { nd with grads := [] } := by
          rw [List.getElem?_set_self', hnd]; rfl
        cases htt : nd.type_ with
        | const v =>
          rw [htt] at h hT hsh1 hty1 hunt1 hi1
          dsimp only at h
          cases h
          refine ⟨hsh1, rfl, ?_, ?_, ?_⟩
          · intro k hnr
            exact hunt1 k (fun he => hnr (by rw [he]; exact Reaches.refl i))
          · intro k hr
            rcases reaches_inv hr with rfl | ⟨t, j, hT2, hj2, hsub⟩
            · exact ⟨_, hi1, rfl⟩
            · rw [hT] at hT2
              rw [(Option.some.inj hT2).symm] at hj2
              simp [childIndices] at hj2
          · intro k nd2 h2
            by_cases hki : k = i
            · subst hki
              rw [hi1] at h2
              cases h2
              exact Or.inl rfl
            · rw [hunt1 k hki] at h2
              exact Or.inr h2
        | var name =>
          rw [htt] at h hT hsh1 hty1 hunt1 hi1
          dsimp only at h
          cases h
          refine ⟨hsh1, rfl, ?_, ?_, ?_⟩
          · intro k hnr
            exact hunt1 k (fun he => hnr (by rw [he]; exact Reaches.refl i))
          · intro k hr
            rcases reaches_inv hr with rfl | ⟨t, j, hT2, hj2, hsub⟩
            · exact ⟨_, hi1, rfl⟩
            · rw [hT] at hT2
              rw [(Option.some.inj hT2).symm] at hj2
              simp [childIndices] at hj2
          · intro k nd2 h2
            by_cases hki : k = i
            · subst hki
              rw [hi1] at h2
              cases h2
              exact Or.inl rfl
            · rw [hunt1 k hki] at h2
              exact Or.inr h2
        | neg a =>
          rw [htt] at h hT hsh1 hty1 hunt1 hi1
          dsimp only at h
          obtain ⟨hshR, hbR, huntR, hclrR, hcoR⟩ := ih _ _ _ h
          have hlenR := length_eq_of_shapeOf hshR
          refine ⟨hshR.trans hsh1, hbR, ?_, ?_, ?_⟩
          · intro k hnr
            have hki : k ≠ i := fun he => hnr (by rw [he]; exact Reaches.refl i)
            have hnka : ¬ Reaches (typesOf st.arena) a k := fun hr =>
              hnr (Reaches.step i a k _ hT (by simp [childIndices]) hr)
            exact (huntR k (fun hr => hnka (hty1 ▸ hr))).trans (hunt1 k hki)
          · intro k hr
            rcases reaches_inv hr with rfl | ⟨t, j, hT2, hj2, hsub⟩
            · exact grads_empty_persist k hlenR hcoR ⟨_, hi1, rfl⟩
            · rw [hT] at hT2
              rw [(Option.some.inj hT2).symm] at hj2
              simp only [childIndices, List.mem_singleton] at hj2
              subst hj2
              exact hclrR k (hty1.symm ▸ hsub)
          · intro k nd2 h2
            rcases hcoR k nd2 h2 with hl | hrr
            · exact Or.inl hl
            · by_cases hki : k = i
              · subst hki
                rw [hi1] at hrr
                cases hrr
                exact Or.inl rfl
              · rw [hunt1 k hki] at hrr
                exact Or.inr hrr
        | pow a e =>
          rw [htt] at h hT hsh1 hty1 hunt1 hi1
          dsimp only at h
          obtain ⟨hshR, hbR, huntR, hclrR, hcoR⟩ := ih _ _ _ h
          have hlenR := length_eq_of_shapeOf hshR
          refine ⟨hshR.trans hsh1, hbR, ?_, ?_, ?_⟩
          · intro k hnr
            have hki : k ≠ i := fun he => hnr (by rw [he]; exact Reaches.refl i)
            have hnka : ¬ Reaches (typesOf st.arena) a k := fun hr =>
              hnr (Reaches.step i a k _ hT (by simp [childIndices]) hr)
            exact (huntR k (fun hr => hnka (hty1 ▸ hr))).trans (hunt1 k hki)
          · intro k hr
            rcases reaches_inv hr with rfl | ⟨t, j, hT2, hj2, hsub⟩
            · exact grads_empty_persist k hlenR hcoR ⟨_, hi1, rfl⟩
            · rw [hT] at hT2
              rw [(Option.some.inj hT2).symm] at hj2
              simp only [childIndices, List.mem_singleton] at hj2
              subst hj2
              exact hclrR k (hty1.symm ▸ hsub)
          · intro k nd2 h2
            rcases hcoR k nd2 h2 with hl | hrr
            · exact Or.inl hl
            · by_cases hki : k = i
              · subst hki
                rw [hi1] at hrr
                cases hrr
                exact Or.inl rfl
              · rw [hunt1 k hki] at hrr
                exact Or.inr hrr
        | sin a =>
          rw [htt] at h hT hsh1 hty1 hunt1 hi1
          dsimp only at h
          obtain ⟨hshR, hbR, huntR, hclrR, hcoR⟩ := ih _ _ _ h
          have hlenR := length_eq_of_shapeOf hshR
          refine ⟨hshR.trans hsh1, hbR, ?_, ?_, ?_⟩
          · intro k hnr
            have hki : k ≠ i := fun he => hnr (by rw [he]; exact Reaches.refl i)
            have hnka : ¬ Reaches (typesOf st.arena) a k := fun hr =>
              hnr (Reaches.step i a k _ hT (by simp [childIndices]) hr)
            exact (huntR k (fun hr => hnka (hty1 ▸ hr))).trans (hunt1 k hki)
          · intro k hr
            rcases reaches_inv hr with rfl | ⟨t, j, hT2, hj2, hsub⟩
            · exact grads_empty_persist k hlenR hcoR ⟨_, hi1, rfl⟩
            · rw [hT] at hT2
              rw [(Option.some.inj hT2).symm] at hj2
              simp only [childIndices, List.mem_singleton] at hj2
              subst hj2
              exact hclrR k (hty1.symm ▸ hsub)
          · intro k nd2 h2
            rcases hcoR k nd2 h2 with hl | hrr
            · exact Or.inl hl
            · by_cases hki : k = i
              · subst hki
                rw [hi1] at hrr
                cases hrr
                exact Or.inl rfl
              · rw [hunt1 k hki] at hrr
                exact Or.inr hrr
        | cos a =>
          rw [htt] at h hT hsh1 hty1 hunt1 hi1
          dsimp only at h
          obtain ⟨hshR, hbR, huntR, hclrR, hcoR⟩ := ih _ _ _ h
          have hlenR := length_eq_of_shapeOf hshR
          refine ⟨hshR.trans hsh1, hbR, ?_, ?_, ?_⟩
          · intro k hnr
            have hki : k ≠ i := fun he => hnr (by rw [he]; exact Reaches.refl i)
            have hnka : ¬ Reaches (typesOf st.arena) a k := fun hr =>
              hnr (Reaches.step i a k _ hT (by simp [childIndices]) hr)
            exact (huntR k (fun hr => hnka (hty1 ▸ hr))).trans (hunt1 k hki)
          · intro k hr
            rcases reaches_inv hr with rfl | ⟨t, j, hT2, hj2, hsub⟩
            · exact grads_empty_persist k hlenR hcoR ⟨_, hi1, rfl⟩
            · rw [hT] at hT2
              rw [(Option.some.inj hT2).symm] at hj2
              simp only [childIndices, List.mem_singleton] at hj2
              subst hj2
              exact hclrR k (hty1.symm ▸ hsub)
          · intro k nd2 h2
            rcases hcoR k nd2 h2 with hl | hrr
            · exact Or.inl hl
            · by_cases hki : k = i
              · subst hki
                rw [hi1] at hrr
                cases hrr
                exact Or.inl rfl
              · rw [hunt1 k hki] at hrr
                exact Or.inr hrr
        | add a b =>
          rw [htt] at h hT hsh1 hty1 hunt1 hi1
          dsimp only at h
          split at h
          next st2 hra =>
            obtain ⟨hshA, hbA, huntA, hclrA, hcoA⟩ := ih _ _ _ hra
            obtain ⟨hshB, hbB, huntB, hclrB, hcoB⟩ := ih _ _ _ h
            have hlenA := length_eq_of_shapeOf hshA
            have hlenB := length_eq_of_shapeOf hshB
            have htyA : typesOf st2.arena = typesOf st.arena :=
              (typesOf_eq_of_shapeOf hshA).trans hty1
            refine ⟨(hshB.trans hshA).trans hsh1, hbB.trans hbA, ?_, ?_, ?_⟩
            · intro k hnr
              have hki : k ≠ i := fun he => hnr (by rw [he]; exact Reaches.refl i)
              have hnka : ¬ Reaches (typesOf st.arena) a k := fun hr =>
                hnr (Reaches.step i a k _ hT (by simp [childIndices]) hr)
              have hnkb : ¬ Reaches (typesOf st.arena) b k := fun hr =>
                hnr (Reaches.step i b k _ hT (by simp [childIndices]) hr)
              calc st'.arena[k]? = st2.arena[k]? := huntB k (fun hr => hnkb (htyA ▸ hr))
                _ = _ := (huntA k (fun hr => hnka (hty1 ▸ hr))).trans (hunt1 k hki)
            · intro k hr
              rcases reaches_inv hr with rfl | ⟨t, j, hT2, hj2, hsub⟩
              · exact grads_empty_persist k hlenB hcoB
                  (grads_empty_persist k hlenA hcoA ⟨_, hi1, rfl⟩)
              · rw [hT] at hT2
                rw [(Option.some.inj hT2).symm] at hj2
                simp only [childIndices, List.mem_cons, List.not_mem_nil, or_false] at hj2
                cases hj2 with
                | inl hja =>
                  subst hja
                  exact grads_empty_persist k hlenB hcoB (hclrA k (hty1.symm ▸ hsub))
                | inr hjb =>
                  subst hjb
                  exact hclrB k (htyA.symm ▸ hsub)
            · intro k nd2 h2
              rcases hcoB k nd2 h2 with hl | hrr
              · exact Or.inl hl
              · rcases hcoA k nd2 hrr with hl2 | hrr2
                · exact Or.inl hl2
                · by_cases hki : k = i
                  · subst hki
                    rw [hi1] at hrr2
                    cases hrr2
                    exact Or.inl rfl
                  · rw [hunt1 k hki] at hrr2
                    exact Or.inr hrr2
          next hra => exact AdRes.noConfusion h
          next hra => exact AdRes.noConfusion h
        | sub a b =>
          rw [htt] at h hT hsh1 hty1 hunt1 hi1
          dsimp only at h
          split at h
          next st2 hra =>
            obtain ⟨hshA, hbA, huntA, hclrA, hcoA⟩ := ih _ _ _ hra
            obtain ⟨hshB, hbB, huntB, hclrB, hcoB⟩ := ih _ _ _ h
            have hlenA := length_eq_of_shapeOf hshA
            have hlenB := length_eq_of_shapeOf hshB
            have htyA : typesOf st2.arena = typesOf st.arena :=
              (typesOf_eq_of_shapeOf hshA).trans hty1
            refine ⟨(hshB.trans hshA).trans hsh1, hbB.trans hbA, ?_, ?_, ?_⟩
            · intro k hnr
              have hki : k ≠ i := fun he => hnr (by rw [he]; exact Reaches.refl i)
              have hnka : ¬ Reaches (typesOf st.arena) a k := fun hr =>
                hnr (Reaches.step i a k _ hT (by simp [childIndices]) hr)
              have hnkb : ¬ Reaches (typesOf st.arena) b k := fun hr =>
                hnr (Reaches.step i b k _ hT (by simp [childIndices]) hr)
              calc st'.arena[k]? = st2.arena[k]? := huntB k (fun hr => hnkb (htyA ▸ hr))
                _ = _ := (huntA k (fun hr => hnka (hty1 ▸ hr))).trans (hunt1 k hki)
            · intro k hr
              rcases reaches_inv hr with rfl | ⟨t, j, hT2, hj2, hsub⟩
              · exact grads_empty_persist k hlenB hcoB
                  (grads_empty_persist k hlenA hcoA ⟨_, hi1, rfl⟩)
              · rw [hT] at hT2
                rw [(Option.some.inj hT2).symm] at hj2
                simp only [childIndices, List.mem_cons, List.not_mem_nil, or_false] at hj2
                cases hj2 with
                | inl hja =>
                  subst hja
                  exact grads_empty_persist k hlenB hcoB (hclrA k (hty1.symm ▸ hsub))
                | inr hjb =>
                  subst hjb
                  exact hclrB k (htyA.symm ▸ hsub)
            · intro k nd2 h2
              rcases hcoB k nd2 h2 with hl | hrr
              · exact Or.inl hl
              · rcases hcoA k nd2 hrr with hl2 | hrr2
                · exact Or.inl hl2
                · by_cases hki : k = i
                  · subst hki
                    rw [hi1] at hrr2
                    cases hrr2
                    exact Or.inl rfl
                  · rw [hunt1 k hki] at hrr2
                    exact Or.inr hrr2
          next hra => exact AdRes.noConfusion h
          next hra => exact AdRes.noConfusion h
        | mul a b =>
          rw [htt] at h hT hsh1 hty1 hunt1 hi1
          dsimp only at h
          split at h
          next st2 hra =>
            obtain ⟨hshA, hbA, huntA, hclrA, hcoA⟩ := ih _ _ _ hra
            obtain ⟨hshB, hbB, huntB, hclrB, hcoB⟩ := ih _ _ _ h
            have hlenA := length_eq_of_shapeOf hshA
            have hlenB := length_eq_of_shapeOf hshB
            have htyA : typesOf st2.arena = typesOf st.arena :=
              (typesOf_eq_of_shapeOf hshA).trans hty1
            refine ⟨(hshB.trans hshA).trans hsh1, hbB.trans hbA, ?_, ?_, ?_⟩
            · intro k hnr
              have hki : k ≠ i := fun he => hnr (by rw [he]; exact Reaches.refl i)
              have hnka : ¬ Reaches (typesOf st.arena) a k := fun hr =>
                hnr (Reaches.step i a k _ hT (by simp [childIndices]) hr)
              have hnkb : ¬ Reaches (typesOf st.arena) b k := fun hr =>
                hnr (Reaches.step i b k _ hT (by simp [childIndices]) hr)
              calc st'.arena[k]? = st2.arena[k]? := huntB k (fun hr => hnkb (htyA ▸ hr))
                _ = _ := (huntA k (fun hr => hnka (hty1 ▸ hr))).trans (hunt1 k hki)
            · intro k hr
              rcases reaches_inv hr with rfl | ⟨t, j, hT2, hj2, hsub⟩
              · exact grads_empty_persist k hlenB hcoB
                  (grads_empty_persist k hlenA hcoA ⟨_, hi1, rfl⟩)
              · rw [hT] at hT2
                rw [(Option.some.inj hT2).symm] at hj2
                simp only [childIndices, List.mem_cons, List.not_mem_nil, or_false] at hj2
                cases hj2 with
                | inl hja =>
                  subst hja
                  exact grads_empty_persist k hlenB hcoB (hclrA k (hty1.symm ▸ hsub))
                | inr hjb =>
                  subst hjb
                  exact hclrB k (htyA.symm ▸ hsub)
            · intro k nd2 h2
              rcases hcoB k nd2 h2 with hl | hrr
              · exact Or.inl hl
              · rcases hcoA k nd2 hrr with hl2 | hrr2
                · exact Or.inl hl2
                · by_cases hki : k = i
                  · subst hki
                    rw [hi1] at hrr2
                    cases hrr2
                    exact Or.inl rfl
                  · rw [hunt1 k hki] at hrr2
                    exact Or.inr hrr2
          next hra => exact AdRes.noConfusion h
          next hra => exact AdRes.noConfusion h
        | div a b =>
          rw [htt] at h hT hsh1 hty1 hunt1 hi1
          dsimp only at h
          split at h
          next st2 hra =>
            obtain ⟨hshA, hbA, huntA, hclrA, hcoA⟩ := ih _ _ _ hra
            obtain ⟨hshB, hbB, huntB, hclrB, hcoB⟩ := ih _ _ _ h
            have hlenA := length_eq_of_shapeOf hshA
            have hlenB := length_eq_of_shapeOf hshB
            have htyA : typesOf st2.arena = typesOf st.arena :=
              (typesOf_eq_of_shapeOf hshA).trans hty1
            refine ⟨(hshB.trans hshA).trans hsh1, hbB.trans hbA, ?_, ?_, ?_⟩
            · intro k hnr
              have hki : k ≠ i := fun he => hnr (by rw [he]; exact Reaches.refl i)
              have hnka : ¬ Reaches (typesOf st.arena) a k := fun hr =>
                hnr (Reaches.step i a k _ hT (by simp [childIndices]) hr)
              have hnkb : ¬ Reaches (typesOf st.arena) b k := fun hr =>
                hnr (Reaches.step i b k _ hT (by simp [childIndices]) hr)
              calc st'.arena[k]? = st2.arena[k]? := huntB k (fun hr => hnkb (htyA ▸ hr))
                _ = _ := (huntA k (fun hr => hnka (hty1 ▸ hr))).trans (hunt1 k hki)
            · intro k hr
              rcases reaches_inv hr with rfl | ⟨t, j, hT2, hj2, hsub⟩
              · exact grads_empty_persist k hlenB hcoB
                  (grads_empty_persist k hlenA hcoA ⟨_, hi1, rfl⟩)
              · rw [hT] at hT2
                rw [(Option.some.inj hT2).symm] at hj2
                simp only [childIndices, List.mem_cons, List.not_mem_nil, or_false] at hj2
                cases hj2 with
                | inl hja =>
                  subst hja
                  exact grads_empty_persist k hlenB hcoB (hclrA k (hty1.symm ▸ hsub))
                | inr hjb =>
                  subst hjb
                  exact hclrB k (htyA.symm ▸ hsub)
            · intro k nd2 h2
              rcases hcoB k nd2 h2 with hl | hrr
              · exact Or.inl hl
              · rcases hcoA k nd2 hrr with hl2 | hrr2
                · exact Or.inl hl2
                · by_cases hki : k = i
                  · subst hki
                    rw [hi1] at hrr2
                    cases hrr2
                    exact Or.inl rfl
                  · rw [hunt1 k hki] at hrr2
                    exact Or.inr hrr2
          next hra => exact AdRes.noConfusion h
          next hra => exact AdRes.noConfusion h

/-- Transport of reachability along an equality of type lists. -/
theorem reaches_of_eq {T T' : List (NodeType α)} (h : T = T') {i k : Nat}
    (hr : Reaches T i k) : Reaches T' i k := h ▸ hr

/-- Arena lookups succeed below the length. -/
theorem getElem?_isSome_of_lt {l : List (NodeData α)} {i : Nat} (h : i < l.length) :
    ∃ nd : NodeData α, l[i]? = some nd := by
  cases hx : l[i]? with
  | none => exact absurd (List.getElem?_eq_none_iff.mp hx) (Nat.not_le.mpr h)
  | some nd => exact ⟨nd, rfl⟩

/-- Looking up a freshly written slot. -/
theorem getElem?_set_of_lt {l : List (NodeData α)} {i : Nat} (nd1 : NodeData α)
    (h : i < l.length) : (l.set i nd1)[i]? = some nd1 := by
  obtain ⟨nd0, hnd0⟩ := getElem?_isSome_of_lt h
  rw [List.getElem?_set_self', hnd0]
  rfl

/-- A gradient map built by the insert loop from an empty map satisfies the
per-pass key invariant. -/
theorem keysMatch_of_insertLoop (vf : String → Option α) (vars : List String) (g : Grads α)
    (h : insertLoop vf vars [] = some g) : keysMatch g vars := by
  obtain ⟨h1, h2⟩ := insertLoop_keys vf vars [] g h
  refine ⟨h1 (by simp), fun s hs => ?_, fun s hs => ?_⟩
  · rcases (h2 s).mp hs with h3 | h3
    · simp at h3
    · exact h3
  · exact (h2 s).mpr (Or.inr hs)

/-- Inversion of a successful `finishNode`. -/
theorem finishNode_ok {vf : String → Option α} {vars : List String} {i : Nat}
    {nd : NodeData α} {st st' : AdState α}
    (h : finishNode vf vars i nd st = .ok st') :
    ∃ g, insertLoop vf vars nd.grads = some g ∧
      st' = { st with arena := st.arena.set i { nd with grads := g },
                      borrowed := st.borrowed.erase i,
                      trace := st.trace ++ [Event.compute i] } := by
  unfold finishNode at h
  split at h
  next hil => exact AdRes.noConfusion h
  next g hil => exact ⟨g, hil, (AdRes.ok.inj h).symm⟩

/-- Master postcondition of a normally returning `backward_ad` run: it
preserves every node shape (tags and `current_value` slots), restores the
borrow set, leaves nodes not reachable from the call root untouched, and
leaves every reachable node with a gradient map holding exactly one entry
per requested variable name. -/
theorem backward_ad_spec (ops : ScalarOps α) :
    ∀ (fuel : Nat) (vars : List String) (i : Nat) (st st' : AdState α),
      backward_ad ops fuel vars i st = .ok st' →
      shapeOf st'.arena = shapeOf st.arena ∧
      st'.borrowed = st.borrowed ∧
      (∀ k, ¬ Reaches (typesOf st.arena) i k → st'.arena[k]? = st.arena[k]?) ∧
      (∀ k, Reaches (typesOf st.arena) i k →
        ∃ nd2 : NodeData α, st'.arena[k]? = some nd2 ∧ keysMatch nd2.grads vars) := by
  intro fuel
  induction fuel with
  | zero => intro vars i st st' h; exact AdRes.noConfusion h
  | succ n ih =>
    intro vars i st st' h
    rw [backward_ad] at h
    split at h
    next hrst => exact AdRes.noConfusion h
    next hrst => exact AdRes.noConfusion h
    next st1 hrst =>
      obtain ⟨hshR, hbR, huntR, hclrR, hcoR⟩ := reset_grads_spec n i st st1 hrst
      have htyR : typesOf st1.arena = typesOf st.arena := typesOf_eq_of_shapeOf hshR
      cases hnd1 : st1.arena[i]? with
      | none => rw [hnd1] at h; exact AdRes.noConfusion h
      | some nd =>
        rw [hnd1] at h
        dsimp only at h
        by_cases hbb : i ∈ st1.borrowed
        · rw [if_pos hbb] at h; exact AdRes.noConfusion h
        · rw [if_neg hbb] at h
          have hndg : nd.grads = [] := by
            obtain ⟨ndc, hndc, hgc⟩ := hclrR i (Reaches.refl i)
            rw [hnd1] at hndc
            cases hndc
            exact hgc
          rw [hndg] at h
          rw [if_neg (by simp)] at h
          have hT : (typesOf st.arena)[i]? = some nd.type_ := by
            rw [← htyR, typesOf_getElem?, hnd1]; rfl
          have hsh_i : (shapeOf st1.arena)[i]? = some (nd.type_, nd.value) := by
            rw [shapeOf_getElem?, hnd1]; rfl
          cases htt : nd.type_ with

        | const v =>
          rw [htt] at h
          dsimp only at h
          obtain ⟨g, hil, hst'⟩ := finishNode_ok h
          rw [hndg] at hil
          subst hst'
          refine ⟨?_, ?_, ?_, ?_⟩
          · exact (shapeOf_set_grads st1.arena i nd g hsh_i).trans hshR
          · show (i :: st1.borrowed).erase i = st.borrowed
            rw [List.erase_cons_head]
            exact hbR
          · intro k hnr
            have hki : k ≠ i := fun he => hnr (by rw [he]; exact Reaches.refl i)
            show (st1.arena.set i { nd with grads := g })[k]? = st.arena[k]?
            rw [List.getElem?_set_ne (fun hh => hki hh.symm)]
            exact huntR k hnr
          · intro k hr
            have hself : ∃ nd2 : NodeData α,
                (st1.arena.set i { nd with grads := g })[i]? = some nd2 ∧
                  keysMatch nd2.grads vars :=
              ⟨{ nd with grads := g },
                getElem?_set_of_lt _ (List.getElem?_eq_some.mp hnd1).1,
                keysMatch_of_insertLoop _ vars g hil⟩
            rcases reaches_inv hr with rfl | ⟨t, j, hT2, hj2, hsub⟩
            · exact hself
            · rw [hT] at hT2
              rw [(Option.some.inj hT2).symm] at hj2
              rw [htt] at hj2
              simp [childIndices] at hj2
        | var name =>
          rw [htt] at h
          dsimp only at h
          obtain ⟨g, hil, hst'⟩ := finishNode_ok h
          rw [hndg] at hil
          subst hst'
          refine ⟨?_, ?_, ?_, ?_⟩
          · exact (shapeOf_set_grads st1.arena i nd g hsh_i).trans hshR
          · show (i :: st1.borrowed).erase i = st.borrowed
            rw [List.erase_cons_head]
            exact hbR
          · intro k hnr
            have hki : k ≠ i := fun he => hnr (by rw [he]; exact Reaches.refl i)
            show (st1.arena.set i { nd with grads := g })[k]? = st.arena[k]?
            rw [List.getElem?_set_ne (fun hh => hki hh.symm)]
            exact huntR k hnr
          · intro k hr
            have hself : ∃ nd2 : NodeData α,
                (st1.arena.set i { nd with grads := g })[i]? = some nd2 ∧
                  keysMatch nd2.grads vars :=
              ⟨{ nd with grads := g },
                getElem?_set_of_lt _ (List.getElem?_eq_some.mp hnd1).1,
                keysMatch_of_insertLoop _ vars g hil⟩
            rcases reaches_inv hr with rfl | ⟨t, j, hT2, hj2, hsub⟩
            · exact hself
            · rw [hT] at hT2
              rw [(Option.some.inj hT2).symm] at hj2
              rw [htt] at hj2
              simp [childIndices] at hj2
        | neg a =>
          rw [htt] at h
          dsimp only at h
          split at h
          next st2 hbw =>
            obtain ⟨hshB1, hbB1, huntB1, hreachB1⟩ := ih vars a _ st2 hbw
            have hsh2 : shapeOf st2.arena = shapeOf st1.arena := hshB1
            have hty2 : typesOf st2.arena = typesOf st.arena :=
              (typesOf_eq_of_shapeOf hsh2).trans htyR
            have hsh_i2 : (shapeOf st2.arena)[i]? = some (nd.type_, nd.value) := by
              rw [hsh2]; exact hsh_i
            by_cases hab : a ∈ st2.borrowed
            · rw [if_pos hab] at h; exact AdRes.noConfusion h
            · rw [if_neg hab] at h
              cases hca : st2.arena[a]? with
              | none => rw [hca] at h; exact AdRes.noConfusion h
              | some ca =>
                rw [hca] at h
                dsimp only at h
                obtain ⟨g, hil, hst'⟩ := finishNode_ok h
                rw [hndg] at hil
                subst hst'
                refine ⟨?_, ?_, ?_, ?_⟩
                · exact ((shapeOf_set_grads st2.arena i nd g hsh_i2).trans hsh2).trans hshR
                · show st2.borrowed.erase i = st.borrowed
                  rw [hbB1]
                  show (i :: st1.borrowed).erase i = st.borrowed
                  rw [List.erase_cons_head]
                  exact hbR
                · intro k hnr
                  have hki : k ≠ i := fun he => hnr (by rw [he]; exact Reaches.refl i)
                  have hnka : ¬ Reaches (typesOf st.arena) a k := fun hrr =>
                    hnr (Reaches.step i a k _ hT (by rw [htt]; simp [childIndices]) hrr)
                  show (st2.arena.set i { nd with grads := g })[k]? = st.arena[k]?
                  rw [List.getElem?_set_ne (fun hh => hki hh.symm)]
                  calc st2.arena[k]?
                      _ = st1.arena[k]? := huntB1 k (fun hrr => hnka (reaches_of_eq htyR hrr))
                      _ = st.arena[k]? := huntR k hnr
                · intro k hr
                  have hself : ∃ nd2 : NodeData α,
                      (st2.arena.set i { nd with grads := g })[i]? = some nd2 ∧
                        keysMatch nd2.grads vars := by
                    have hklt : i < st2.arena.length := by
                      rw [length_eq_of_shapeOf hsh2]
                      exact (List.getElem?_eq_some.mp hnd1).1
                    exact ⟨{ nd with grads := g }, getElem?_set_of_lt _ hklt,
                      keysMatch_of_insertLoop _ vars g hil⟩
                  rcases reaches_inv hr with rfl | ⟨t, j, hT2, hj2, hsub⟩
                  · exact hself
                  · rw [hT] at hT2
                    rw [(Option.some.inj hT2).symm] at hj2
                    rw [htt] at hj2
                    simp only [childIndices, List.mem_singleton] at hj2
                    subst hj2
                    by_cases hki : k = i
                    · subst hki
                      exact hself
                    · obtain ⟨nd2, hnd2, hkm2⟩ := hreachB1 k (reaches_of_eq htyR.symm hsub)
                      refine ⟨nd2, ?_, hkm2⟩
                      show (st2.arena.set i { nd with grads := g })[k]? = some nd2
                      rw [List.getElem?_set_ne (fun hh => hki hh.symm)]
                      exact hnd2
          next hbw => exact AdRes.noConfusion h
          next hbw => exact AdRes.noConfusion h
        | pow a e =>
          rw [htt] at h
          dsimp only at h
          split at h
          next st2 hbw =>
            obtain ⟨hshB1, hbB1, huntB1, hreachB1⟩ := ih vars a _ st2 hbw
            have hsh2 : shapeOf st2.arena = shapeOf st1.arena := hshB1
            have hty2 : typesOf st2.arena = typesOf st.arena :=
              (typesOf_eq_of_shapeOf hsh2).trans htyR
            have hsh_i2 : (shapeOf st2.arena)[i]? = some (nd.type_, nd.value) := by
              rw [hsh2]; exact hsh_i
            by_cases hab : a ∈ st2.borrowed
            · rw [if_pos hab] at h; exact AdRes.noConfusion h
            · rw [if_neg hab] at h
              cases hca : st2.arena[a]? with
              | none => rw [hca] at h; exact AdRes.noConfusion h
              | some ca =>
                rw [hca] at h
                dsimp only at h
                obtain ⟨g, hil, hst'⟩ := finishNode_ok h
                rw [hndg] at hil
                subst hst'
                refine ⟨?_, ?_, ?_, ?_⟩
                · exact ((shapeOf_set_grads st2.arena i nd g hsh_i2).trans hsh2).trans hshR
                · show st2.borrowed.erase i = st.borrowed
                  rw [hbB1]
                  show (i :: st1.borrowed).erase i = st.borrowed
                  rw [List.erase_cons_head]
                  exact hbR
                · intro k hnr
                  have hki : k ≠ i := fun he => hnr (by rw [he]; exact Reaches.refl i)
                  have hnka : ¬ Reaches (typesOf st.arena) a k := fun hrr =>
                    hnr (Reaches.step i a k _ hT (by rw [htt]; simp [childIndices]) hrr)
                  show (st2.arena.set i { nd with grads := g })[k]? = st.arena[k]?
                  rw [List.getElem?_set_ne (fun hh => hki hh.symm)]
                  calc st2.arena[k]?
                      _ = st1.arena[k]? := huntB1 k (fun hrr => hnka (reaches_of_eq htyR hrr))
                      _ = st.arena[k]? := huntR k hnr
                · intro k hr
                  have hself : ∃ nd2 : NodeData α,
                      (st2.arena.set i { nd with grads := g })[i]? = some nd2 ∧
                        keysMatch nd2.grads vars := by
                    have hklt : i < st2.arena.length := by
                      rw [length_eq_of_shapeOf hsh2]
                      exact (List.getElem?_eq_some.mp hnd1).1
                    exact ⟨{ nd with grads := g }, getElem?_set_of_lt _ hklt,
                      keysMatch_of_insertLoop _ vars g hil⟩
                  rcases reaches_inv hr with rfl | ⟨t, j, hT2, hj2, hsub⟩
                  · exact hself
                  · rw [hT] at hT2
                    rw [(Option.some.inj hT2).symm] at hj2
                    rw [htt] at hj2
                    simp only [childIndices, List.mem_singleton] at hj2
                    subst hj2
                    by_cases hki : k = i
                    · subst hki
                      exact hself
                    · obtain ⟨nd2, hnd2, hkm2⟩ := hreachB1 k (reaches_of_eq htyR.symm hsub)
                      refine ⟨nd2, ?_, hkm2⟩
                      show (st2.arena.set i { nd with grads := g })[k]? = some nd2
                      rw [List.getElem?_set_ne (fun hh => hki hh.symm)]
                      exact hnd2
          next hbw => exact AdRes.noConfusion h
          next hbw => exact AdRes.noConfusion h
        | sin a =>
          rw [htt] at h
          dsimp only at h
          split at h
          next st2 hbw =>
            obtain ⟨hshB1, hbB1, huntB1, hreachB1⟩ := ih vars a _ st2 hbw
            have hsh2 : shapeOf st2.arena = shapeOf st1.arena := hshB1
            have hty2 : typesOf st2.arena = typesOf st.arena :=
              (typesOf_eq_of_shapeOf hsh2).trans htyR
            have hsh_i2 : (shapeOf st2.arena)[i]? = some (nd.type_, nd.value) := by
              rw [hsh2]; exact hsh_i
            by_cases hab : a ∈ st2.borrowed
            · rw [if_pos hab] at h; exact AdRes.noConfusion h
            · rw [if_neg hab] at h
              cases hca : st2.arena[a]? with
              | none => rw [hca] at h; exact AdRes.noConfusion h
              | some ca =>
                rw [hca] at h
                dsimp only at h
                obtain ⟨g, hil, hst'⟩ := finishNode_ok h
                rw [hndg] at hil
                subst hst'
                refine ⟨?_, ?_, ?_, ?_⟩
                · exact ((shapeOf_set_grads st2.arena i nd g hsh_i2).trans hsh2).trans hshR
                · show st2.borrowed.erase i = st.borrowed
                  rw [hbB1]
                  show (i :: st1.borrowed).erase i = st.borrowed
                  rw [List.erase_cons_head]
                  exact hbR
                · intro k hnr
                  have hki : k ≠ i := fun he => hnr (by rw [he]; exact Reaches.refl i)
                  have hnka : ¬ Reaches (typesOf st.arena) a k := fun hrr =>
                    hnr (Reaches.step i a k _ hT (by rw [htt]; simp [childIndices]) hrr)
                  show (st2.arena.set i { nd with grads := g })[k]? = st.arena[k]?
                  rw [List.getElem?_set_ne (fun hh => hki hh.symm)]
                  calc st2.arena[k]?
                      _ = st1.arena[k]? := huntB1 k (fun hrr => hnka (reaches_of_eq htyR hrr))
                      _ = st.arena[k]? := huntR k hnr
                · intro k hr
                  have hself : ∃ nd2 : NodeData α,
                      (st2.arena.set i { nd with grads := g })[i]? = some nd2 ∧
                        keysMatch nd2.grads vars := by
                    have hklt : i < st2.arena.length := by
                      rw [length_eq_of_shapeOf hsh2]
                      exact (List.getElem?_eq_some.mp hnd1).1
                    exact ⟨{ nd with grads := g }, getElem?_set_of_lt _ hklt,
                      keysMatch_of_insertLoop _ vars g hil⟩
                  rcases reaches_inv hr with rfl | ⟨t, j, hT2, hj2, hsub⟩
                  · exact hself
                  · rw [hT] at hT2
                    rw [(Option.some.inj hT2).symm] at hj2
                    rw [htt] at hj2
                    simp only [childIndices, List.mem_singleton] at hj2
                    subst hj2
                    by_cases hki : k = i
                    · subst hki
                      exact hself
                    · obtain ⟨nd2, hnd2, hkm2⟩ := hreachB1 k (reaches_of_eq htyR.symm hsub)
                      refine ⟨nd2, ?_, hkm2⟩
                      show (st2.arena.set i { nd with grads := g })[k]? = some nd2
                      rw [List.getElem?_set_ne (fun hh => hki hh.symm)]
                      exact hnd2
          next hbw => exact AdRes.noConfusion h
          next hbw => exact AdRes.noConfusion h
        | cos a =>
          rw [htt] at h
          dsimp only at h
          split at h
          next st2 hbw =>
            obtain ⟨hshB1, hbB1, huntB1, hreachB1⟩ := ih vars a _ st2 hbw
            have hsh2 : shapeOf st2.arena = shapeOf st1.arena := hshB1
            have hty2 : typesOf st2.arena = typesOf st.arena :=
              (typesOf_eq_of_shapeOf hsh2).trans htyR
            have hsh_i2 : (shapeOf st2.arena)[i]? = some (nd.type_, nd.value) := by
              rw [hsh2]; exact hsh_i
            by_cases hab : a ∈ st2.borrowed
            · rw [if_pos hab] at h; exact AdRes.noConfusion h
            · rw [if_neg hab] at h
              cases hca : st2.arena[a]? with
              | none => rw [hca] at h; exact AdRes.noConfusion h
              | some ca =>
                rw [hca] at h
                dsimp only at h
                obtain ⟨g, hil, hst'⟩ := finishNode_ok h
                rw [hndg] at hil
                subst hst'
                refine ⟨?_, ?_, ?_, ?_⟩
                · exact ((shapeOf_set_grads st2.arena i nd g hsh_i2).trans hsh2).trans hshR
                · show st2.borrowed.erase i = st.borrowed
                  rw [hbB1]
                  show (i :: st1.borrowed).erase i = st.borrowed
                  rw [List.erase_cons_head]
                  exact hbR
                · intro k hnr
                  have hki : k ≠ i := fun he => hnr (by rw [he]; exact Reaches.refl i)
                  have hnka : ¬ Reaches (typesOf st.arena) a k := fun hrr =>
                    hnr (Reaches.step i a k _ hT (by rw [htt]; simp [childIndices]) hrr)
                  show (st2.arena.set i { nd with grads := g })[k]? = st.arena[k]?
                  rw [List.getElem?_set_ne (fun hh => hki hh.symm)]
                  calc st2.arena[k]?
                      _ = st1.arena[k]? := huntB1 k (fun hrr => hnka (reaches_of_eq htyR hrr))
                      _ = st.arena[k]? := huntR k hnr
                · intro k hr
                  have hself : ∃ nd2 : NodeData α,
                      (st2.arena.set i { nd with grads := g })[i]? = some nd2 ∧
                        keysMatch nd2.grads vars := by
                    have hklt : i < st2.arena.length := by
                      rw [length_eq_of_shapeOf hsh2]
                      exact (List.getElem?_eq_some.mp hnd1).1
                    exact ⟨{ nd with grads := g }, getElem?_set_of_lt _ hklt,
                      keysMatch_of_insertLoop _ vars g hil⟩
                  rcases reaches_inv hr with rfl | ⟨t, j, hT2, hj2, hsub⟩
                  · exact hself
                  · rw [hT] at hT2
                    rw [(Option.some.inj hT2).symm] at hj2
                    rw [htt] at hj2
                    simp only [childIndices, List.mem_singleton] at hj2
                    subst hj2
                    by_cases hki : k = i
                    · subst hki
                      exact hself
                    · obtain ⟨nd2, hnd2, hkm2⟩ := hreachB1 k (reaches_of_eq htyR.symm hsub)
                      refine ⟨nd2, ?_, hkm2⟩
                      show (st2.arena.set i { nd with grads := g })[k]? = some nd2
                      rw [List.getElem?_set_ne (fun hh => hki hh.symm)]
                      exact hnd2
          next hbw => exact AdRes.noConfusion h
          next hbw => exact AdRes.noConfusion h
        | add a b =>
          rw [htt] at h
          dsimp only at h
          split at h
          next st2 hbwa =>
            split at h
            next st3 hbwb =>
              obtain ⟨hshA1, hbA1, huntA1, hreachA1⟩ := ih vars a _ st2 hbwa
              obtain ⟨hshB1, hbB1, huntB1, hreachB1⟩ := ih vars b st2 st3 hbwb
              have hsh2 : shapeOf st2.arena = shapeOf st1.arena := hshA1
              have hsh3 : shapeOf st3.arena = shapeOf st2.arena := hshB1
              have hty2 : typesOf st2.arena = typesOf st.arena :=
                (typesOf_eq_of_shapeOf hsh2).trans htyR
              have hty3 : typesOf st3.arena = typesOf st.arena :=
                (typesOf_eq_of_shapeOf hsh3).trans hty2
              have hsh_i3 : (shapeOf st3.arena)[i]? = some (nd.type_, nd.value) := by
                rw [hsh3, hsh2]; exact hsh_i
              by_cases hab : a ∈ st3.borrowed
              · rw [if_pos hab] at h; exact AdRes.noConfusion h
              · rw [if_neg hab] at h
                by_cases hbb2 : b ∈ st3.borrowed
                · rw [if_pos hbb2] at h; exact AdRes.noConfusion h
                · rw [if_neg hbb2] at h
                  cases hca : st3.arena[a]? with
                  | none => rw [hca] at h; dsimp only at h; exact AdRes.noConfusion h
                  | some ca =>
                    rw [hca] at h
                    cases hcb : st3.arena[b]? with
                    | none => rw [hcb] at h; dsimp only at h; exact AdRes.noConfusion h
                    | some cb =>
                      rw [hcb] at h
                      dsimp only at h
                      obtain ⟨g, hil, hst'⟩ := finishNode_ok h
                      rw [hndg] at hil
                      subst hst'
                      refine ⟨?_, ?_, ?_, ?_⟩
                      · exact (((shapeOf_set_grads st3.arena i nd g hsh_i3).trans
                          hsh3).trans hsh2).trans hshR
                      · show st3.borrowed.erase i = st.borrowed
                        rw [hbB1, hbA1]
                        show (i :: st1.borrowed).erase i = st.borrowed
                        rw [List.erase_cons_head]
                        exact hbR
                      · intro k hnr
                        have hki : k ≠ i := fun he => hnr (by rw [he]; exact Reaches.refl i)
                        have hnka : ¬ Reaches (typesOf st.arena) a k := fun hrr =>
                          hnr (Reaches.step i a k _ hT (by rw [htt]; simp [childIndices]) hrr)
                        have hnkb : ¬ Reaches (typesOf st.arena) b k := fun hrr =>
                          hnr (Reaches.step i b k _ hT (by rw [htt]; simp [childIndices]) hrr)
                        show (st3.arena.set i { nd with grads := g })[k]? = st.arena[k]?
                        rw [List.getElem?_set_ne (fun hh => hki hh.symm)]
                        calc st3.arena[k]?
                            _ = st2.arena[k]? :=
                              huntB1 k (fun hrr => hnkb (reaches_of_eq hty2 hrr))
                            _ = st1.arena[k]? :=
                              huntA1 k (fun hrr => hnka (reaches_of_eq htyR hrr))
                            _ = st.arena[k]? := huntR k hnr
                      · intro k hr
                        have hself : ∃ nd2 : NodeData α,
                            (st3.arena.set i { nd with grads := g })[i]? = some nd2 ∧
                              keysMatch nd2.grads vars := by
                          have hklt : i < st3.arena.length := by
                            rw [length_eq_of_shapeOf hsh3, length_eq_of_shapeOf hsh2]
                            exact (List.getElem?_eq_some.mp hnd1).1
                          exact ⟨{ nd with grads := g }, getElem?_set_of_lt _ hklt,
                            keysMatch_of_insertLoop _ vars g hil⟩
                        rcases reaches_inv hr with rfl | ⟨t, j, hT2, hj2, hsub⟩
                        · exact hself
                        · rw [hT] at hT2
                          rw [(Option.some.inj hT2).symm] at hj2
                          rw [htt] at hj2
                          simp only [childIndices, List.mem_cons, List.not_mem_nil,
                            or_false] at hj2
                          by_cases hki : k = i
                          · subst hki
                            exact hself
                          · have hx3 : ∃ nd2 : NodeData α, st3.arena[k]? = some nd2 ∧
                                keysMatch nd2.grads vars := by
                              by_cases hrb : Reaches (typesOf st.arena) b k
                              · exact hreachB1 k (reaches_of_eq hty2.symm hrb)
                              · cases hj2 with
                                | inl hja =>
                                  subst hja
                                  obtain ⟨nd2, hnd2, hkm2⟩ :=
                                    hreachA1 k (reaches_of_eq htyR.symm hsub)
                                  refine ⟨nd2, ?_, hkm2⟩
                                  rw [huntB1 k (fun hrr => hrb (reaches_of_eq hty2 hrr))]
                                  exact hnd2
                                | inr hjb =>
                                  subst hjb
                                  exact absurd hsub hrb
                            obtain ⟨nd2, hnd2, hkm2⟩ := hx3
                            refine ⟨nd2, ?_, hkm2⟩
                            show (st3.arena.set i { nd with grads := g })[k]? = some nd2
                            rw [List.getElem?_set_ne (fun hh => hki hh.symm)]
                            exact hnd2
            next hbwb => exact AdRes.noConfusion h
            next hbwb => exact AdRes.noConfusion h
          next hbwa => exact AdRes.noConfusion h
          next hbwa => exact AdRes.noConfusion h
        | sub a b =>
          rw [htt] at h
          dsimp only at h
          split at h
          next st2 hbwa =>
            split at h
            next st3 hbwb =>
              obtain ⟨hshA1, hbA1, huntA1, hreachA1⟩ := ih vars a _ st2 hbwa
              obtain ⟨hshB1, hbB1, huntB1, hreachB1⟩ := ih vars b st2 st3 hbwb
              have hsh2 : shapeOf st2.arena = shapeOf st1.arena := hshA1
              have hsh3 : shapeOf st3.arena = shapeOf st2.arena := hshB1
              have hty2 : typesOf st2.arena = typesOf st.arena :=
                (typesOf_eq_of_shapeOf hsh2).trans htyR
              have hty3 : typesOf st3.arena = typesOf st.arena :=
                (typesOf_eq_of_shapeOf hsh3).trans hty2
              have hsh_i3 : (shapeOf st3.arena)[i]? = some (nd.type_, nd.value) := by
                rw [hsh3, hsh2]; exact hsh_i
              by_cases hab : a ∈ st3.borrowed
              · rw [if_pos hab] at h; exact AdRes.noConfusion h
              · rw [if_neg hab] at h
                by_cases hbb2 : b ∈ st3.borrowed
                · rw [if_pos hbb2] at h; exact AdRes.noConfusion h
                · rw [if_neg hbb2] at h
                  cases hca : st3.arena[a]? with
                  | none => rw [hca] at h; dsimp only at h; exact AdRes.noConfusion h
                  | some ca =>
                    rw [hca] at h
                    cases hcb : st3.arena[b]? with
                    | none => rw [hcb] at h; dsimp only at h; exact AdRes.noConfusion h
                    | some cb =>
                      rw [hcb] at h
                      dsimp only at h
                      obtain ⟨g, hil, hst'⟩ := finishNode_ok h
                      rw [hndg] at hil
                      subst hst'
                      refine ⟨?_, ?_, ?_, ?_⟩
                      · exact (((shapeOf_set_grads st3.arena i nd g hsh_i3).trans
                          hsh3).trans hsh2).trans hshR
                      · show st3.borrowed.erase i = st.borrowed
                        rw [hbB1, hbA1]
                        show (i :: st1.borrowed).erase i = st.borrowed
                        rw [List.erase_cons_head]
                        exact hbR
                      · intro k hnr
                        have hki : k ≠ i := fun he => hnr (by rw [he]; exact Reaches.refl i)
                        have hnka : ¬ Reaches (typesOf st.arena) a k := fun hrr =>
                          hnr (Reaches.step i a k _ hT (by rw [htt]; simp [childIndices]) hrr)
                        have hnkb : ¬ Reaches (typesOf st.arena) b k := fun hrr =>
                          hnr (Reaches.step i b k _ hT (by rw [htt]; simp [childIndices]) hrr)
                        show (st3.arena.set i { nd with grads := g })[k]? = st.arena[k]?
                        rw [List.getElem?_set_ne (fun hh => hki hh.symm)]
                        calc st3.arena[k]?
                            _ = st2.arena[k]? :=
                              huntB1 k (fun hrr => hnkb (reaches_of_eq hty2 hrr))
                            _ = st1.arena[k]? :=
                              huntA1 k (fun hrr => hnka (reaches_of_eq htyR hrr))
                            _ = st.arena[k]? := huntR k hnr
                      · intro k hr
                        have hself : ∃ nd2 : NodeData α,
                            (st3.arena.set i { nd with grads := g })[i]? = some nd2 ∧
                              keysMatch nd2.grads vars := by
                          have hklt : i < st3.arena.length := by
                            rw [length_eq_of_shapeOf hsh3, length_eq_of_shapeOf hsh2]
                            exact (List.getElem?_eq_some.mp hnd1).1
                          exact ⟨{ nd with grads := g }, getElem?_set_of_lt _ hklt,
                            keysMatch_of_insertLoop _ vars g hil⟩
                        rcases reaches_inv hr with rfl | ⟨t, j, hT2, hj2, hsub⟩
                        · exact hself
                        · rw [hT] at hT2
                          rw [(Option.some.inj hT2).symm] at hj2
                          rw [htt] at hj2
                          simp only [childIndices, List.mem_cons, List.not_mem_nil,
                            or_false] at hj2
                          by_cases hki : k = i
                          · subst hki
                            exact hself
                          · have hx3 : ∃ nd2 : NodeData α, st3.arena[k]? = some nd2 ∧
                                keysMatch nd2.grads vars := by
                              by_cases hrb : Reaches (typesOf st.arena) b k
                              · exact hreachB1 k (reaches_of_eq hty2.symm hrb)
                              · cases hj2 with
                                | inl hja =>
                                  subst hja
                                  obtain ⟨nd2, hnd2, hkm2⟩ :=
                                    hreachA1 k (reaches_of_eq htyR.symm hsub)
                                  refine ⟨nd2, ?_, hkm2⟩
                                  rw [huntB1 k (fun hrr => hrb (reaches_of_eq hty2 hrr))]
                                  exact hnd2
                                | inr hjb =>
                                  subst hjb
                                  exact absurd hsub hrb
                            obtain ⟨nd2, hnd2, hkm2⟩ := hx3
                            refine ⟨nd2, ?_, hkm2⟩
                            show (st3.arena.set i { nd with grads := g })[k]? = some nd2
                            rw [List.getElem?_set_ne (fun hh => hki hh.symm)]
                            exact hnd2
            next hbwb => exact AdRes.noConfusion h
            next hbwb => exact AdRes.noConfusion h
          next hbwa => exact AdRes.noConfusion h
          next hbwa => exact AdRes.noConfusion h
        | mul a b =>
          rw [htt] at h
          dsimp only at h
          split at h
          next st2 hbwa =>
            split at h
            next st3 hbwb =>
              obtain ⟨hshA1, hbA1, huntA1, hreachA1⟩ := ih vars a _ st2 hbwa
              obtain ⟨hshB1, hbB1, huntB1, hreachB1⟩ := ih vars b st2 st3 hbwb
              have hsh2 : shapeOf st2.arena = shapeOf st1.arena := hshA1
              have hsh3 : shapeOf st3.arena = shapeOf st2.arena := hshB1
              have hty2 : typesOf st2.arena = typesOf st.arena :=
                (typesOf_eq_of_shapeOf hsh2).trans htyR
              have hty3 : typesOf st3.arena = typesOf st.arena :=
                (typesOf_eq_of_shapeOf hsh3).trans hty2
              have hsh_i3 : (shapeOf st3.arena)[i]? = some (nd.type_, nd.value) := by
                rw [hsh3, hsh2]; exact hsh_i
              by_cases hab : a ∈ st3.borrowed
              · rw [if_pos hab] at h; exact AdRes.noConfusion h
              · rw [if_neg hab] at h
                by_cases hbb2 : b ∈ st3.borrowed
                · rw [if_pos hbb2] at h; exact AdRes.noConfusion h
                · rw [if_neg hbb2] at h
                  cases hca : st3.arena[a]? with
                  | none => rw [hca] at h; dsimp only at h; exact AdRes.noConfusion h
                  | some ca =>
                    rw [hca] at h
                    cases hcb : st3.arena[b]? with
                    | none => rw [hcb] at h; dsimp only at h; exact AdRes.noConfusion h
                    | some cb =>
                      rw [hcb] at h
                      dsimp only at h
                      obtain ⟨g, hil, hst'⟩ := finishNode_ok h
                      rw [hndg] at hil
                      subst hst'
                      refine ⟨?_, ?_, ?_, ?_⟩
                      · exact (((shapeOf_set_grads st3.arena i nd g hsh_i3).trans
                          hsh3).trans hsh2).trans hshR
                      · show st3.borrowed.erase i = st.borrowed
                        rw [hbB1, hbA1]
                        show (i :: st1.borrowed).erase i = st.borrowed
                        rw [List.erase_cons_head]
                        exact hbR
                      · intro k hnr
                        have hki : k ≠ i := fun he => hnr (by rw [he]; exact Reaches.refl i)
                        have hnka : ¬ Reaches (typesOf st.arena) a k := fun hrr =>
                          hnr (Reaches.step i a k _ hT (by rw [htt]; simp [childIndices]) hrr)
                        have hnkb : ¬ Reaches (typesOf st.arena) b k := fun hrr =>
                          hnr (Reaches.step i b k _ hT (by rw [htt]; simp [childIndices]) hrr)
                        show (st3.arena.set i { nd with grads := g })[k]? = st.arena[k]?
                        rw [List.getElem?_set_ne (fun hh => hki hh.symm)]
                        calc st3.arena[k]?
                            _ = st2.arena[k]? :=
                              huntB1 k (fun hrr => hnkb (reaches_of_eq hty2 hrr))
                            _ = st1.arena[k]? :=
                              huntA1 k (fun hrr => hnka (reaches_of_eq htyR hrr))
                            _ = st.arena[k]? := huntR k hnr
                      · intro k hr
                        have hself : ∃ nd2 : NodeData α,
                            (st3.arena.set i { nd with grads := g })[i]? = some nd2 ∧
                              keysMatch nd2.grads vars := by
                          have hklt : i < st3.arena.length := by
                            rw [length_eq_of_shapeOf hsh3, length_eq_of_shapeOf hsh2]
                            exact (List.getElem?_eq_some.mp hnd1).1
                          exact ⟨{ nd with grads := g }, getElem?_set_of_lt _ hklt,
                            keysMatch_of_insertLoop _ vars g hil⟩
                        rcases reaches_inv hr with rfl | ⟨t, j, hT2, hj2, hsub⟩
                        · exact hself
                        · rw [hT] at hT2
                          rw [(Option.some.inj hT2).symm] at hj2
                          rw [htt] at hj2
                          simp only [childIndices, List.mem_cons, List.not_mem_nil,
                            or_false] at hj2
                          by_cases hki : k = i
                          · subst hki
                            exact hself
                          · have hx3 : ∃ nd2 : NodeData α, st3.arena[k]? = some nd2 ∧
                                keysMatch nd2.grads vars := by
                              by_cases hrb : Reaches (typesOf st.arena) b k
                              · exact hreachB1 k (reaches_of_eq hty2.symm hrb)
                              · cases hj2 with
                                | inl hja =>
                                  subst hja
                                  obtain ⟨nd2, hnd2, hkm2⟩ :=
                                    hreachA1 k (reaches_of_eq htyR.symm hsub)
                                  refine ⟨nd2, ?_, hkm2⟩
                                  rw [huntB1 k (fun hrr => hrb (reaches_of_eq hty2 hrr))]
                                  exact hnd2
                                | inr hjb =>
                                  subst hjb
                                  exact absurd hsub hrb
                            obtain ⟨nd2, hnd2, hkm2⟩ := hx3
                            refine ⟨nd2, ?_, hkm2⟩
                            show (st3.arena.set i { nd with grads := g })[k]? = some nd2
                            rw [List.getElem?_set_ne (fun hh => hki hh.symm)]
                            exact hnd2
            next hbwb => exact AdRes.noConfusion h
            next hbwb => exact AdRes.noConfusion h
          next hbwa => exact AdRes.noConfusion h
          next hbwa => exact AdRes.noConfusion h
        | div a b =>
          rw [htt] at h
          dsimp only at h
          split at h
          next st2 hbwa =>
            split at h
            next st3 hbwb =>
              obtain ⟨hshA1, hbA1, huntA1, hreachA1⟩ := ih vars a _ st2 hbwa
              obtain ⟨hshB1, hbB1, huntB1, hreachB1⟩ := ih vars b st2 st3 hbwb
              have hsh2 : shapeOf st2.arena = shapeOf st1.arena := hshA1
              have hsh3 : shapeOf st3.arena = shapeOf st2.arena := hshB1
              have hty2 : typesOf st2.arena = typesOf st.arena :=
                (typesOf_eq_of_shapeOf hsh2).trans htyR
              have hty3 : typesOf st3.arena = typesOf st.arena :=
                (typesOf_eq_of_shapeOf hsh3).trans hty2
              have hsh_i3 : (shapeOf st3.arena)[i]? = some (nd.type_, nd.value) := by
                rw [hsh3, hsh2]; exact hsh_i
              by_cases hab : a ∈ st3.borrowed
              · rw [if_pos hab] at h; exact AdRes.noConfusion h
              · rw [if_neg hab] at h
                by_cases hbb2 : b ∈ st3.borrowed
                · rw [if_pos hbb2] at h; exact AdRes.noConfusion h
                · rw [if_neg hbb2] at h
                  cases hca : st3.arena[a]? with
                  | none => rw [hca] at h; dsimp only at h; exact AdRes.noConfusion h
                  | some ca =>
                    rw [hca] at h
                    cases hcb : st3.arena[b]? with
                    | none => rw [hcb] at h; dsimp only at h; exact AdRes.noConfusion h
                    | some cb =>
                      rw [hcb] at h
                      dsimp only at h
                      obtain ⟨g, hil, hst'⟩ := finishNode_ok h
                      rw [hndg] at hil
                      subst hst'
                      refine ⟨?_, ?_, ?_, ?_⟩
                      · exact (((shapeOf_set_grads st3.arena i nd g hsh_i3).trans
                          hsh3).trans hsh2).trans hshR
                      · show st3.borrowed.erase i = st.borrowed
                        rw [hbB1, hbA1]
                        show (i :: st1.borrowed).erase i = st.borrowed
                        rw [List.erase_cons_head]
                        exact hbR
                      · intro k hnr
                        have hki : k ≠ i := fun he => hnr (by rw [he]; exact Reaches.refl i)
                        have hnka : ¬ Reaches (typesOf st.arena) a k := fun hrr =>
                          hnr (Reaches.step i a k _ hT (by rw [htt]; simp [childIndices]) hrr)
                        have hnkb : ¬ Reaches (typesOf st.arena) b k := fun hrr =>
                          hnr (Reaches.step i b k _ hT (by rw [htt]; simp [childIndices]) hrr)
                        show (st3.arena.set i { nd with grads := g })[k]? = st.arena[k]?
                        rw [List.getElem?_set_ne (fun hh => hki hh.symm)]
                        calc st3.arena[k]?
                            _ = st2.arena[k]? :=
                              huntB1 k (fun hrr => hnkb (reaches_of_eq hty2 hrr))
                            _ = st1.arena[k]? :=
                              huntA1 k (fun hrr => hnka (reaches_of_eq htyR hrr))
                            _ = st.arena[k]? := huntR k hnr
                      · intro k hr
                        have hself : ∃ nd2 : NodeData α,
                            (st3.arena.set i { nd with grads := g })[i]? = some nd2 ∧
                              keysMatch nd2.grads vars := by
                          have hklt : i < st3.arena.length := by
                            rw [length_eq_of_shapeOf hsh3, length_eq_of_shapeOf hsh2]
                            exact (List.getElem?_eq_some.mp hnd1).1
                          exact ⟨{ nd with grads := g }, getElem?_set_of_lt _ hklt,
                            keysMatch_of_insertLoop _ vars g hil⟩
                        rcases reaches_inv hr with rfl | ⟨t, j, hT2, hj2, hsub⟩
                        · exact hself
                        · rw [hT] at hT2
                          rw [(Option.some.inj hT2).symm] at hj2
                          rw [htt] at hj2
                          simp only [childIndices, List.mem_cons, List.not_mem_nil,
                            or_false] at hj2
                          by_cases hki : k = i
                          · subst hki
                            exact hself
                          · have hx3 : ∃ nd2 : NodeData α, st3.arena[k]? = some nd2 ∧
                                keysMatch nd2.grads vars := by
                              by_cases hrb : Reaches (typesOf st.arena) b k
                              · exact hreachB1 k (reaches_of_eq hty2.symm hrb)
                              · cases hj2 with
                                | inl hja =>
                                  subst hja
                                  obtain ⟨nd2, hnd2, hkm2⟩ :=
                                    hreachA1 k (reaches_of_eq htyR.symm hsub)
                                  refine ⟨nd2, ?_, hkm2⟩
                                  rw [huntB1 k (fun hrr => hrb (reaches_of_eq hty2 hrr))]
                                  exact hnd2
                                | inr hjb =>
                                  subst hjb
                                  exact absurd hsub hrb
                            obtain ⟨nd2, hnd2, hkm2⟩ := hx3
                            refine ⟨nd2, ?_, hkm2⟩
                            show (st3.arena.set i { nd with grads := g })[k]? = some nd2
                            rw [List.getElem?_set_ne (fun hh => hki hh.symm)]
                            exact hnd2
            next hbwb => exact AdRes.noConfusion h
            next hbwb => exact AdRes.noConfusion h
          next hbwa => exact AdRes.noConfusion h
          next hbwa => exact AdRes.noConfusion h

/-- A successful `backward_ad` run starts with `reset_grads`, whose first
`borrow_mut` on its own node fails if that node is already borrowed; hence
the call's root cannot have been borrowed on entry. -/
theorem backward_ok_not_borrowed {ops : ScalarOps α} {fuel : Nat} {vars : List String}
    {a : Nat} {st st' : AdState α} (h : backward_ad ops fuel vars a st = .ok st') :
    a ∉ st.borrowed := by
  cases fuel with
  | zero => exact AdRes.noConfusion h
  | succ n =>
    rw [backward_ad] at h
    split at h
    next hr => exact AdRes.noConfusion h
    next hr => exact AdRes.noConfusion h
    next st1 hr =>
      cases n with
      | zero => exact AdRes.noConfusion hr
      | succ m =>
        rw [reset_grads] at hr
        cases hnd : st.arena[a]? with
        | none => rw [hnd] at hr; exact AdRes.noConfusion hr
        | some nd =>
          rw [hnd] at hr
          dsimp only at hr
          by_cases hb : a ∈ st.borrowed
          · rw [if_pos hb] at hr; exact AdRes.noConfusion hr
          · exact hb

/-- C7 (amended): after a top-level `differentiate(root, vars)` call returns
normally, every node reachable from `root` holds exactly one gradient entry
per requested variable name, and every node not reachable from `root` is
left exactly as it was before the call (so it may retain stale gradients
from an earlier pass over a different variable list). -/
theorem differentiate_key_invariant (ops : ScalarOps α) (fuel : Nat) (vars : List String)
    (root : Nat) (st st' : AdState α)
    (h : backward_ad ops fuel vars root st = .ok st') :
    (∀ k, Reaches (typesOf st.arena) root k →
      ∃ nd : NodeData α, st'.arena[k]? = some nd ∧ keysMatch nd.grads vars) ∧
    (∀ k, ¬ Reaches (typesOf st.arena) root k → st'.arena[k]? = st.arena[k]?) := by
  obtain ⟨_, _, h3, h4⟩ := backward_ad_spec ops fuel vars root st st' h
  exact ⟨h4, h3⟩

/-- Witness for the amended C7 theorem at a concrete run. -/
theorem differentiate_key_invariant_witness :
    (∃ nd : NodeData ℚ,
      (AdState.mk
        [{ type_ := NodeType.var "x", value := (0 : ℚ), grads := [("x", 1)] },
         { type_ := NodeType.var "y", value := 0, grads := [] }] []
        [Event.resetClear 0, Event.compute 0]).arena[0]? = some nd ∧
      keysMatch nd.grads ["x"]) ∧
    (AdState.mk
        [{ type_ := NodeType.var "x", value := (0 : ℚ), grads := [("x", 1)] },
         { type_ := NodeType.var "y", value := 0, grads := [] }] []
        [Event.resetClear 0, Event.compute 0]).arena[1]?
      = (initSt twoVarArena).arena[1]? := by
  have h := differentiate_key_invariant ratOps 5 ["x"] 0 (initSt twoVarArena)
    (AdState.mk
      [{ type_ := NodeType.var "x", value := 0, grads := [("x", 1)] },
       { type_ := NodeType.var "y", value := 0, grads := [] }] []
      [Event.resetClear 0, Event.compute 0]) (by decide)
  refine ⟨h.1 0 (Reaches.refl 0), h.2 1 ?_⟩
  intro hr
  rcases reaches_inv hr with h1 | ⟨t, j, hT2, hj2, hsub⟩
  · exact Nat.noConfusion h1
  · have ht : t = NodeType.var "x" := by
      have : (typesOf (initSt twoVarArena).arena)[0]? = some (NodeType.var "x") := by decide
      rw [this] at hT2
      exact (Option.some.inj hT2).symm
    rw [ht] at hj2
    simp [childIndices] at hj2

/-- C10: `differentiate` never writes any `current_value` slot — a normally
returning `backward_ad` run leaves the arena's value projection exactly as
it was before the call. -/
theorem differentiate_preserves_values (ops : ScalarOps α) (fuel : Nat) (vars : List String)
    (root : Nat) (st st' : AdState α)
    (h : backward_ad ops fuel vars root st = .ok st') :
    valuesOf st'.arena = valuesOf st.arena := by
  obtain ⟨h1, _, _, _⟩ := backward_ad_spec ops fuel vars root st st' h
  exact valuesOf_eq_of_shapeOf h1

/-- Witness for the C10 theorem at a concrete run. -/
theorem differentiate_preserves_values_witness :
    valuesOf (AdState.mk
        [{ type_ := NodeType.var "x", value := (0 : ℚ), grads := [("x", 1)] },
         { type_ := NodeType.var "y", value := 0, grads := [] }] []
        [Event.resetClear 0, Event.compute 0]).arena
      = valuesOf (initSt twoVarArena).arena :=
  differentiate_preserves_values ratOps 5 ["x"] 0 (initSt twoVarArena) _ (by decide)

/-- Concrete arena witnessing C6: `Add(Const 1, Var "z")`-style graph
(`[Var "z", Const 1, Add 1 0]`) with root `2` reaching the variable node. -/
def missArena : List (NodeData ℚ) :=
  [{ type_ := NodeType.var "z", value := 0, grads := [] },
   { type_ := NodeType.const 1, value := 0, grads := [] },
   { type_ := NodeType.add 1 0, value := 0, grads := [] }]

/-- Witness for the C6 theorem: on `missArena` with the empty assignment the
evaluation terminates with the absent result, and by the theorem it cannot
be any present value. -/
theorem missing_variable_propagates_witness :
    forward ratOps missArena 5 2 (fun _ => none) = some Option.none ∧
    forward ratOps missArena 5 2 (fun _ => none) ≠ some (some 7) :=
  ⟨by decide,
   missing_variable_propagates ratOps missArena (fun _ => none) 2 0 "z"
     (Reaches.step 2 0 0 (NodeType.add 1 0) (by decide) (by decide) (Reaches.refl 0))
     (by decide) rfl 5 7⟩

/-- Two arenas with identical structure but different `current_value` and
`gradients` auxiliary state, for the C8 witness. -/
def frameArena1 : List (NodeData ℚ) :=
  [{ type_ := NodeType.var "x", value := 5, grads := [("x", 1)] },
   { type_ := NodeType.mul 0 0, value := 9, grads := [("y", 3)] }]

def frameArena2 : List (NodeData ℚ) :=
  [{ type_ := NodeType.var "x", value := 0, grads := [] },
   { type_ := NodeType.mul 0 0, value := 0, grads := [] }]

/-- Witness for the C8 theorem: the two arenas differ only in auxiliary
state, and `forward` returns the same (present) result on both. -/
theorem forward_reads_only_structure_witness :
    typesOf frameArena1 = typesOf frameArena2 ∧
    forward ratOps frameArena1 5 1 refAssignment
      = forward ratOps frameArena2 5 1 refAssignment ∧
    forward ratOps frameArena1 5 1 refAssignment = some (some 64) :=
  ⟨by decide,
   forward_reads_only_structure ratOps frameArena1 frameArena2 (by decide) 5 1 refAssignment,
   by decide⟩

/-- Two-node arena `[Var "x", Cos 0]` with the given `current_value`
slots. -/
def cosArena (vx vc : α) : List (NodeData α) :=
  [{ type_ := NodeType.var "x", value := vx, grads := [] },
   { type_ := NodeType.cos 0, value := vc, grads := [] }]

/-- Symbolic evaluation of `backward_ad` on the `Cos(Var "x")` arena for an
arbitrary scalar structure: the gradient stored at the `Cos` node applies
`sinf` to the node's own cached value `vc`, not to the operand's value
`vx`. -/
theorem backward_cos_concrete (ops : ScalarOps α) (vx vc : α) :
    backward_ad ops 4 ["x"] 1 (initSt (cosArena vx vc)) =
      .ok { arena := [{ type_ := NodeType.var "x", value := vx, grads := [("x", ops.one)] },
                      { type_ := NodeType.cos 0, value := vc,
                        grads := [("x", ops.mul (ops.neg (ops.sinf vc)) ops.one)] }],
            borrowed := [],
            trace := [Event.resetClear 1, Event.resetClear 0, Event.resetClear 0,
                      Event.compute 0, Event.compute 1] } := rfl

/-- C4 counterexample: on `Cos(Var "x")` with `x.current_value = 1` and the
`Cos` node's own value slot left at its default `0`, the stored gradient
for `x` is `-sin 0 * 1 = 0`, whereas the claimed formula
`-sin(a.current_value) * (a's gradient) = -sin 1 * 1` is nonzero. -/
theorem cos_gradient_counterexample :
    (runOk? (backward_ad realOps 4 ["x"] 1 (initSt (cosArena (1 : ℝ) 0)))).bind
      (fun st => gradAt st 1 "x") = some 0 ∧
    -Real.sin 1 * 1 ≠ (0 : ℝ) := by
  constructor
  · rw [backward_cos_concrete realOps 1 0]
    show gradsGet? [("x", realOps.mul (realOps.neg (realOps.sinf 0)) realOps.one)] "x"
      = some 0
    rw [gradsGet?, List.find?_cons_of_pos _ (by simp)]
    show some (realOps.mul (realOps.neg (realOps.sinf 0)) realOps.one) = some 0
    have : realOps.mul (realOps.neg (realOps.sinf 0)) realOps.one = 0 := by
      show -Real.sin 0 * 1 = 0
      rw [Real.sin_zero]
      ring
    rw [this]
  · have h1 : 0 < Real.sin 1 :=
      Real.sin_pos_of_pos_of_lt_pi (by norm_num) (by linarith [Real.pi_gt_three])
    intro hc
    rw [mul_one, neg_eq_zero] at hc
    exact absurd hc (ne_of_gt h1)

/-- C4 (amended): for every Cos node, a normally returning differentiation
pass stores, for each requested variable `v`, the gradient
`-sin(self.current_value) * (operand's stored gradient for v)` — the sine is
applied to the Cos node's own cached value (which the caller must have set;
it defaults to `0`), not to the operand's cached value; correspondingly a
Sin node's factor is `cos(self.current_value)`. -/
theorem trig_gradient_factor (ops : ScalarOps α) (fuel : Nat) (vars : List String)
    (i a : Nat) (st st' : AdState α) (nd : NodeData α)
    (hrun : backward_ad ops fuel vars i st = .ok st')
    (hnd : st.arena[i]? = some nd)
    (v : String) (hv : v ∈ vars) :
    (nd.type_ = NodeType.cos a → ∃ ga, gradAt st' a v = some ga ∧
      gradAt st' i v = some (ops.mul (ops.neg (ops.sinf nd.value)) ga)) ∧
    (nd.type_ = NodeType.sin a → ∃ ga, gradAt st' a v = some ga ∧
      gradAt st' i v = some (ops.mul (ops.cosf nd.value) ga)) := by
  cases fuel with
  | zero => exact AdRes.noConfusion hrun
  | succ n =>
    rw [backward_ad] at hrun
    split at hrun
    next hr => exact AdRes.noConfusion hrun
    next hr => exact AdRes.noConfusion hrun
    next st1 hrst =>
      obtain ⟨hshR, hbR, huntR, hclrR, hcoR⟩ := reset_grads_spec n i st st1 hrst
      cases hnd1 : st1.arena[i]? with
      | none => rw [hnd1] at hrun; exact AdRes.noConfusion hrun
      | some nd1 =>
        have hsame : nd1.type_ = nd.type_ ∧ nd1.value = nd.value := by
          have h1 : (shapeOf st1.arena)[i]? = (shapeOf st.arena)[i]? := by rw [hshR]
          rw [shapeOf_getElem?, shapeOf_getElem?, hnd1, hnd] at h1
          simp only [Option.map_some', Option.some.injEq, Prod.mk.injEq] at h1
          exact h1
        have hndg : nd1.grads = [] := by
          obtain ⟨ndc, hndc, hgc⟩ := hclrR i (Reaches.refl i)
          rw [hnd1] at hndc
          cases hndc
          exact hgc
        rw [hnd1] at hrun
        dsimp only at hrun
        by_cases hbb : i ∈ st1.borrowed
        · rw [if_pos hbb] at hrun; exact AdRes.noConfusion hrun
        · rw [if_neg hbb] at hrun
          rw [hndg] at hrun
          rw [if_neg (by simp)] at hrun
          rw [← hsame.1, ← hsame.2]
          cases htt : nd1.type_ with

          | const v2 =>
            exact ⟨fun hc => NodeType.noConfusion hc, fun hc => NodeType.noConfusion hc⟩
          | var name2 =>
            exact ⟨fun hc => NodeType.noConfusion hc, fun hc => NodeType.noConfusion hc⟩
          | neg a2 =>
            exact ⟨fun hc => NodeType.noConfusion hc, fun hc => NodeType.noConfusion hc⟩
          | add a2 b2 =>
            exact ⟨fun hc => NodeType.noConfusion hc, fun hc => NodeType.noConfusion hc⟩
          | sub a2 b2 =>
            exact ⟨fun hc => NodeType.noConfusion hc, fun hc => NodeType.noConfusion hc⟩
          | mul a2 b2 =>
            exact ⟨fun hc => NodeType.noConfusion hc, fun hc => NodeType.noConfusion hc⟩
          | div a2 b2 =>
            exact ⟨fun hc => NodeType.noConfusion hc, fun hc => NodeType.noConfusion hc⟩
          | pow a2 e2 =>
            exact ⟨fun hc => NodeType.noConfusion hc, fun hc => NodeType.noConfusion hc⟩
          | sin a2 =>
            refine ⟨fun hc => NodeType.noConfusion hc, ?_⟩
            intro hc
            injection hc with ha2
            subst ha2
            rw [htt] at hrun
            dsimp only at hrun
            split at hrun
            next st2 hbw =>
              obtain ⟨hshB1, hbB1, huntB1, hreachB1⟩ :=
                backward_ad_spec ops n vars a2 _ st2 hbw
              have hlen2 : st2.arena.length = st1.arena.length :=
                length_eq_of_shapeOf hshB1
              have hnab : a2 ∉ (i :: st1.borrowed) := backward_ok_not_borrowed hbw
              have hane : a2 ≠ i := fun he =>
                hnab (by rw [he]; exact List.mem_cons_self i st1.borrowed)
              by_cases hab : a2 ∈ st2.borrowed
              · rw [if_pos hab] at hrun; exact AdRes.noConfusion hrun
              · rw [if_neg hab] at hrun
                cases hca : st2.arena[a2]? with
                | none => rw [hca] at hrun; exact AdRes.noConfusion hrun
                | some ca =>
                  rw [hca] at hrun
                  dsimp only at hrun
                  obtain ⟨g, hil, hst'⟩ := finishNode_ok hrun
                  subst hst'
                  obtain ⟨x, hvf, hgx⟩ := insertLoop_get _ vars nd1.grads g hil v hv
                  rw [Option.map_eq_some'] at hvf
                  obtain ⟨ga, hga, hx⟩ := hvf
                  refine ⟨ga, ?_, ?_⟩
                  · simp only [gradAt]
                    show ((st2.arena.set i { nd1 with grads := g })[a2]?).bind
                      (fun nd2 => gradsGet? nd2.grads v) = some ga
                    rw [List.getElem?_set_ne (fun hh => hane hh.symm), hca]
                    exact hga
                  · simp only [gradAt]
                    show ((st2.arena.set i { nd1 with grads := g })[i]?).bind
                      (fun nd2 => gradsGet? nd2.grads v)
                      = some (ops.mul (ops.cosf nd1.value) ga)
                    have hklt : i < st2.arena.length := by
                      rw [hlen2]
                      exact (List.getElem?_eq_some.mp hnd1).1
                    rw [getElem?_set_of_lt _ hklt]
                    show gradsGet? g v = some (ops.mul (ops.cosf nd1.value) ga)
                    rw [hx]
                    exact hgx
            next hbw => exact AdRes.noConfusion hrun
            next hbw => exact AdRes.noConfusion hrun
          | cos a2 =>
            refine ⟨?_, fun hc => NodeType.noConfusion hc⟩
            intro hc
            injection hc with ha2
            subst ha2
            rw [htt] at hrun
            dsimp only at hrun
            split at hrun
            next st2 hbw =>
              obtain ⟨hshB1, hbB1, huntB1, hreachB1⟩ :=
                backward_ad_spec ops n vars a2 _ st2 hbw
              have hlen2 : st2.arena.length = st1.arena.length :=
                length_eq_of_shapeOf hshB1
              have hnab : a2 ∉ (i :: st1.borrowed) := backward_ok_not_borrowed hbw
              have hane : a2 ≠ i := fun he =>
                hnab (by rw [he]; exact List.mem_cons_self i st1.borrowed)
              by_cases hab : a2 ∈ st2.borrowed
              · rw [if_pos hab] at hrun; exact AdRes.noConfusion hrun
              · rw [if_neg hab] at hrun
                cases hca : st2.arena[a2]? with
                | none => rw [hca] at hrun; exact AdRes.noConfusion hrun
                | some ca =>
                  rw [hca] at hrun
                  dsimp only at hrun
                  obtain ⟨g, hil, hst'⟩ := finishNode_ok hrun
                  subst hst'
                  obtain ⟨x, hvf, hgx⟩ := insertLoop_get _ vars nd1.grads g hil v hv
                  rw [Option.map_eq_some'] at hvf
                  obtain ⟨ga, hga, hx⟩ := hvf
                  refine ⟨ga, ?_, ?_⟩
                  · simp only [gradAt]
                    show ((st2.arena.set i { nd1 with grads := g })[a2]?).bind
                      (fun nd2 => gradsGet? nd2.grads v) = some ga
                    rw [List.getElem?_set_ne (fun hh => hane hh.symm), hca]
                    exact hga
                  · simp only [gradAt]
                    show ((st2.arena.set i { nd1 with grads := g })[i]?).bind
                      (fun nd2 => gradsGet? nd2.grads v)
                      = some (ops.mul (ops.neg (ops.sinf nd1.value)) ga)
                    have hklt : i < st2.arena.length := by
                      rw [hlen2]
                      exact (List.getElem?_eq_some.mp hnd1).1
                    rw [getElem?_set_of_lt _ hklt]
                    show gradsGet? g v = some (ops.mul (ops.neg (ops.sinf nd1.value)) ga)
                    rw [hx]
                    exact hgx
            next hbw => exact AdRes.noConfusion hrun
            next hbw => exact AdRes.noConfusion hrun

/-- Witness for the amended C4 theorem: a concrete run over the rational
model, with the `Cos` node's value slot set to `7`. -/
theorem trig_gradient_factor_witness :
    ∃ ga, gradAt (AdState.mk
        [{ type_ := NodeType.var "x", value := (5 : ℚ), grads := [("x", 1)] },
         { type_ := NodeType.cos 0, value := 7, grads := [("x", 0)] }] []
        [Event.resetClear 1, Event.resetClear 0, Event.resetClear 0,
         Event.compute 0, Event.compute 1]) 0 "x" = some ga ∧
      gradAt (AdState.mk
        [{ type_ := NodeType.var "x", value := (5 : ℚ), grads := [("x", 1)] },
         { type_ := NodeType.cos 0, value := 7, grads := [("x", 0)] }] []
        [Event.resetClear 1, Event.resetClear 0, Event.resetClear 0,
         Event.compute 0, Event.compute 1]) 1 "x"
        = some (ratOps.mul (ratOps.neg (ratOps.sinf 7)) ga) :=
  (trig_gradient_factor ratOps 4 ["x"] 1 0 (initSt (cosArena 5 7))
      (AdState.mk
        [{ type_ := NodeType.var "x", value := (5 : ℚ), grads := [("x", 1)] },
         { type_ := NodeType.cos 0, value := 7, grads := [("x", 0)] }] []
        [Event.resetClear 1, Event.resetClear 0, Event.resetClear 0,
         Event.compute 0, Event.compute 1])
      { type_ := NodeType.cos 0, value := 7, grads := [] }
      (by decide) (by decide) "x" (by decide)).1 rfl

/-- C9: calling `differentiate` on a structurally cyclic graph (node `0` is
its own operand) never terminates: for every fuel amount the run is
`nofuel` — in particular the `borrow_mut`-failure cycle guard never fires,
because the unconditional `reset_grads` at the head of the call recurses
around the cycle forever (a stack overflow in the real program). -/
theorem cyclic_graph_differentiate_diverges :
    ∀ fuel : Nat, backward_ad ratOps fuel ["x"] 0 (initSt loopArena) = AdRes.nofuel := by
  intro fuel
  cases fuel with
  | zero => rfl
  | succ n =>
    have h := reset_grads_selfloop_nofuel n (initSt loopArena) rfl rfl
    rw [backward_ad, h]
